import Mathlib

/-!
Model fallback registry of CLIProxyAPI.

A shallow embedding of the model-fallback rule registry:

* `src/test/model_fallback_test.go`: `lookupFallback`;
* `src/internal/api/handlers/management/model_fallbacks.go`: the management
  handlers `GetModelFallbacks`, `PutModelFallbacks`, `PostModelFallbacks`,
  `DeleteModelFallbacks`, `updateFallbackConfig`, `GetAvailableModels`;
* package `internal/config` (`SanitizeModelFallbacks`, `LoadConfig`), the
  handler method `persist` and the chain resolver are not among the embedded
  sources; they are modelled from the specification and marked as such.

Go strings are modelled by `String`; `strings.EqualFold` is modelled relative
to a character folding `fold : Char → Char` (the canonical representative of a
character's simple-case-folding orbit), over which every general theorem is
universally quantified.  Concrete examples use `asciiFold`.
-/

namespace Fallback

/-! ## Strings -/

/-- Go `unicode.IsSpace`: the Latin-1 spaces and the code points with the
Unicode White_Space property. -/
def isSpace (c : Char) : Bool :=
  let n := c.toNat
  n == 0x09 || n == 0x0A || n == 0x0B || n == 0x0C || n == 0x0D || n == 0x20 ||
  n == 0x85 || n == 0xA0 || n == 0x1680 || (0x2000 ≤ n && n ≤ 0x200A) ||
  n == 0x2028 || n == 0x2029 || n == 0x202F || n == 0x205F || n == 0x3000

/-- Characters of a string with the leading and trailing spaces removed. -/
def trimChars (cs : List Char) : List Char :=
  (cs.dropWhile isSpace).rdropWhile isSpace

/-- Go `strings.TrimSpace`. -/
def trimSpace (s : String) : String :=
  ⟨trimChars s.data⟩

/-- Go `strings.EqualFold`, relative to the folding `fold`: two strings are equal
under case folding when they have the same characters up to `fold`. -/
def equalFold (fold : Char → Char) (s t : String) : Bool :=
  s.data.map fold == t.data.map fold

/-- Folding of the ASCII letters: `A`..`Z` go to `a`..`z`, every other character
is its own representative. -/
def asciiFold (c : Char) : Char :=
  if 65 ≤ c.toNat ∧ c.toNat ≤ 90 then Char.ofNat (c.toNat + 32) else c

/-! ## Data model -/

/-- Go `config.ModelFallback`: one substitution rule. -/
structure ModelFallback where
  From : String
  To : String
  deriving DecidableEq, Repr

/-- A model entry of a provider key: its name and its alias. -/
structure ProviderModel where
  Name : String
  Alias : String
  deriving DecidableEq, Repr

/-- A Gemini provider key, with its credential. -/
structure GeminiKey where
  APIKey : String
  Models : List ProviderModel
  deriving DecidableEq, Repr

/-- A provider key of the other providers (Claude, Codex, OpenAI compatibility,
Vertex): only its models are read. -/
structure ProviderKey where
  Models : List ProviderModel
  deriving DecidableEq, Repr

/-- An Amp model mapping. -/
structure AmpModelMapping where
  From : String
  To : String
  deriving DecidableEq, Repr

/-- Go `config.AmpCode`, as far as it is read. -/
structure AmpCode where
  ModelMappings : List AmpModelMapping := []
  deriving DecidableEq, Repr

/-- Go `config.Config`, as far as the fallback handlers read it.  The depth is a
`*int`: `none` is the nil pointer. -/
structure Config where
  GeminiKey : List GeminiKey := []
  ClaudeKey : List ProviderKey := []
  CodexKey : List ProviderKey := []
  OpenAICompatibility : List ProviderKey := []
  VertexCompatAPIKey : List ProviderKey := []
  AmpCode : AmpCode := {}
  ModelFallbacks : List ModelFallback := []
  ModelFallbackDepth : Option Int := none
  deriving DecidableEq, Repr

/-! ## Single-hop lookup (`lookupFallback`, src/test/model_fallback_test.go) -/

/-- The `for` loop of `lookupFallback`: the `To` of the first rule whose `From`
folds to `model`, the empty string when there is none. -/
def lookupLoop (fold : Char → Char) (model : String) : List ModelFallback → String
  | [] => ""
  | fb :: rest => if equalFold fold fb.From model then fb.To else lookupLoop fold model rest

/-- The body of `lookupFallback` on the rule list of a non-nil configuration:
the empty model has no fallback, any other model goes through the loop. -/
def lookup (fold : Char → Char) (rules : List ModelFallback) (model : String) : String :=
  if model = "" then "" else lookupLoop fold model rules

/-- Go `lookupFallback(cfg, model)`; `none` is the nil configuration. -/
def lookupFallback (fold : Char → Char) (cfg : Option Config) (model : String) : String :=
  match cfg with
  | none => ""
  | some c => lookup fold c.ModelFallbacks model

/-! ## Sanitizer (package internal/config, not among the sources) -/

/-- Equality of two rules under case folding of both fields. -/
def sameRule (fold : Char → Char) (a b : ModelFallback) : Bool :=
  equalFold fold a.From b.From && equalFold fold a.To b.To

/-- Modelled from the spec: the rule loop of `SanitizeModelFallbacks` (package
internal/config, missing from the sources), following §4.1 step by step: trim
both fields; drop the rule when a field is empty; drop it when `From` equals `To`
under case folding; drop it when a rule retained so far matches it under case
folding of both fields; otherwise retain it, trimmed, after the rules retained
so far. -/
def sanitizeLoop (fold : Char → Char) (out : List ModelFallback) :
    List ModelFallback → List ModelFallback
  | [] => out
  | fb :: rest =>
    let fromT := trimSpace fb.From
    let toT := trimSpace fb.To
    if fromT = "" ∨ toT = "" then sanitizeLoop fold out rest
    else if equalFold fold fromT toT then sanitizeLoop fold out rest
    else if out.any (fun r => sameRule fold r ⟨fromT, toT⟩) then sanitizeLoop fold out rest
    else sanitizeLoop fold (out ++ [⟨fromT, toT⟩]) rest

/-- Modelled from the spec: the Sanitizer of §4.1 on a rule list
(`SanitizeModelFallbacks` is missing from the sources). -/
def sanitizeRules (fold : Char → Char) (rules : List ModelFallback) : List ModelFallback :=
  sanitizeLoop fold [] rules

/-- Modelled from the spec: the depth validation of `SanitizeModelFallbacks`
(missing from the sources), §3: the default is 3, a negative value is reset to
the default, an unset depth becomes the default (the test
`TestModelFallbackDepth` reads a non-nil depth 3 after loading). -/
def sanitizeDepth : Option Int → Option Int
  | none => some 3
  | some d => if d < 0 then some 3 else some d

/-- Modelled from the spec: `(*Config).SanitizeModelFallbacks` (package
internal/config, missing from the sources): the Sanitizer on the rules and the
depth validation, every other field untouched. -/
def SanitizeModelFallbacks (fold : Char → Char) (cfg : Config) : Config :=
  { cfg with
    ModelFallbacks := sanitizeRules fold cfg.ModelFallbacks
    ModelFallbackDepth := sanitizeDepth cfg.ModelFallbackDepth }

/-- Modelled from the spec: `config.LoadConfig` (missing from the sources) on the
parsed fallback section.  The specification describes one normalisation only,
the Sanitizer with its depth validation (§3, §4.1), and the model applies it;
the depth it yields is the one §3 and `TestModelFallbackDepth` state.  What the
loader does to a rule that closes a cycle is not described by the
specification: `TestModelFallbackCycleDetection` expects such a rule to be
dropped at load, which this model does not do, so nothing is concluded from it
about cycles after loading. -/
def LoadConfig (fold : Char → Char) (parsed : Config) : Config :=
  SanitizeModelFallbacks fold parsed

/-! ### The Sanitizer in the words of the specification -/

/-- A rule with both fields trimmed. -/
def trimRule (r : ModelFallback) : ModelFallback :=
  ⟨trimSpace r.From, trimSpace r.To⟩

/-- A rule that has no empty field and does not refer to itself. -/
def validRule (fold : Char → Char) (r : ModelFallback) : Bool :=
  r.From != "" && r.To != "" && !equalFold fold r.From r.To

/-- Only the first rule of each class of rules equal under case folding, in the
original relative order. -/
def keepFirst (fold : Char → Char) : List ModelFallback → List ModelFallback
  | [] => []
  | r :: rest => r :: (keepFirst fold rest).filter (fun y => !sameRule fold r y)

/-- The Sanitizer as the specification words it: trim every rule, discard the
invalid ones, keep the first rule of each case-insensitive pair. -/
def sanitizeSpec (fold : Char → Char) (rules : List ModelFallback) : List ModelFallback :=
  keepFirst fold ((rules.map trimRule).filter (validRule fold))

/-! ### Well-formedness -/

/-- A string that neither starts nor ends with a space. -/
def outerSpaceFree (s : String) : Bool :=
  (s.data.head?.all fun c => !isSpace c) && (s.data.getLast?.all fun c => !isSpace c)

/-- The invariants of a single rule: non-empty trimmed fields that differ under
case folding. -/
def RuleOk (fold : Char → Char) (r : ModelFallback) : Prop :=
  r.From ≠ "" ∧ r.To ≠ "" ∧ outerSpaceFree r.From = true ∧ outerSpaceFree r.To = true ∧
    equalFold fold r.From r.To = false

instance (fold : Char → Char) (r : ModelFallback) : Decidable (RuleOk fold r) := by
  unfold RuleOk; infer_instance

/-- The invariants of a rule set: every rule is well formed and no two rules are
equal under case folding of both fields. -/
def WellFormed (fold : Char → Char) (rules : List ModelFallback) : Prop :=
  (∀ r ∈ rules, RuleOk fold r) ∧ rules.Pairwise (fun a b => sameRule fold a b = false)

instance (fold : Char → Char) (rules : List ModelFallback) : Decidable (WellFormed fold rules) := by
  unfold WellFormed; infer_instance

/-! ## Resolver (not among the sources) -/

/-- Modelled from the spec: the traversal of `resolveChain` (§4.2; the resolver is
missing from the sources).  `fuel` is the number of hops still allowed, `seen`
the models that appeared so far, the starting model included, `cur` the model
reached last.  One hop applies the single-hop lookup; the traversal ends when no
rule matches, when the depth is used up, or when the candidate has already
appeared (names are compared under case folding, as everywhere in the
registry), and the repeated model is not appended. -/
def resolveLoop (fold : Char → Char) (rules : List ModelFallback) :
    Nat → List String → String → List String
  | 0, _, _ => []
  | fuel + 1, seen, cur =>
    let next := lookup fold rules cur
    if next = "" then []
    else if seen.any (fun s => equalFold fold s next) then []
    else next :: resolveLoop fold rules fuel (seen ++ [next]) next

/-- Modelled from the spec: `resolveChain(model)` of §4.2 on a rule set and a
resolution depth (a non-negative integer); the resolver is missing from the
sources. -/
def resolveChain (fold : Char → Char) (rules : List ModelFallback) (depth : Nat)
    (model : String) : List String :=
  resolveLoop fold rules depth [model] model

/-! ## Management handlers (model_fallbacks.go) -/

/-- The JSON body of a reply. -/
inductive Body where
  | fallbacks (rules : List ModelFallback) (depth : Int)
  | status (value : String)
  | statusMessage (value message : String)
  | error (message : String)
  | models (names : List String)
  deriving DecidableEq, Repr

/-- A reply: HTTP status code and body. -/
structure Reply where
  code : Nat
  body : Body
  deriving DecidableEq, Repr

/-- What a handler did to its collaborators, in order. -/
inductive Event where
  | persist (cfg : Config) (ok : Bool)
  | notify (cfg : Config)
  deriving DecidableEq, Repr

/-- The configuration an event carries. -/
def Event.config : Event → Config
  | .persist cfg _ => cfg
  | .notify cfg => cfg

/-- Go `Handler`, as far as the fallback handlers use it: the configuration
pointer (`none` is nil) and whether an auth manager is attached. -/
structure Handler where
  cfg : Option Config
  authManager : Bool
  deriving DecidableEq, Repr

/-- The outcome of a handler call: the handler afterwards, the reply and the
calls made to the collaborators. -/
structure Result where
  handler : Handler
  reply : Reply
  events : List Event
  deriving DecidableEq, Repr

/-- A request body: unreadable, not valid JSON for the target, or parsed. -/
inductive Payload (α : Type) where
  | unreadable
  | invalid
  | parsed (value : α)

/-- The body `PutModelFallbacks` unmarshals. -/
structure PutBody where
  ModelFallbacks : List ModelFallback
  ModelFallbackDepth : Option Int
  deriving DecidableEq, Repr

/-- The query parameters of `DeleteModelFallbacks`; an absent parameter is the
empty string. -/
structure DeleteQuery where
  index : String
  fromQ : String
  toQ : String
  deriving DecidableEq, Repr

/-- Go `GetModelFallbacks`; `none` is the nil handler. -/
def GetModelFallbacks (h : Option Handler) : Reply :=
  match h with
  | none => ⟨200, .fallbacks [] 3⟩
  | some hh =>
    match hh.cfg with
    | none => ⟨200, .fallbacks [] 3⟩
    | some cfg =>
      let depth := match cfg.ModelFallbackDepth with
        | some d => d
        | none => 3
      ⟨200, .fallbacks cfg.ModelFallbacks depth⟩

/-- Modelled from the spec: `(*Handler).persist` (missing from the sources), the
persistence collaborator of §6: it stores the configuration and replies 200, or
fails and informs the caller; `ok` is the collaborator's verdict. -/
def persist (ok : Bool) (cfg : Config) : Bool × Reply × List Event :=
  if ok then (true, ⟨200, .status "ok"⟩, [.persist cfg true])
  else (false, ⟨500, .error "failed to save config"⟩, [.persist cfg false])

/-- Go `updateFallbackConfig`: hands the configuration to the auth manager when
there is one. -/
def updateFallbackConfig (h : Handler) (cfg : Config) : List Event :=
  if h.authManager then [.notify cfg] else []

/-- The common tail of the mutating handlers: the rules are stored in the
configuration, `SanitizeModelFallbacks` runs, then `persist`, then, when it
succeeded, `updateFallbackConfig`. -/
def commit (fold : Char → Char) (h : Handler) (cfg : Config) (persistOk : Bool) : Result :=
  let cfg1 := SanitizeModelFallbacks fold cfg
  let h1 : Handler := { h with cfg := some cfg1 }
  let (ok, reply, ev) := persist persistOk cfg1
  if ok then ⟨h1, reply, ev ++ updateFallbackConfig h1 cfg1⟩
  else ⟨h1, reply, ev⟩

/-- Go `PutModelFallbacks`. -/
def PutModelFallbacks (fold : Char → Char) (h : Handler) (req : Payload PutBody)
    (persistOk : Bool) : Result :=
  match req with
  | .unreadable => ⟨h, ⟨400, .error "failed to read body"⟩, []⟩
  | .invalid => ⟨h, ⟨400, .error "invalid body"⟩, []⟩
  | .parsed body =>
    match h.cfg with
    | none => ⟨h, ⟨500, .error "config not available"⟩, []⟩
    | some cfg =>
      commit fold h
        { cfg with
          ModelFallbacks := body.ModelFallbacks
          ModelFallbackDepth := body.ModelFallbackDepth } persistOk

/-- Go `PostModelFallbacks`. -/
def PostModelFallbacks (fold : Char → Char) (h : Handler) (req : Payload ModelFallback)
    (persistOk : Bool) : Result :=
  match req with
  | .unreadable => ⟨h, ⟨400, .error "invalid body"⟩, []⟩
  | .invalid => ⟨h, ⟨400, .error "invalid body"⟩, []⟩
  | .parsed fb =>
    match h.cfg with
    | none => ⟨h, ⟨500, .error "config not available"⟩, []⟩
    | some cfg =>
      if cfg.ModelFallbacks.any (fun existing => sameRule fold existing fb) then
        ⟨h, ⟨200, .statusMessage "ok" "fallback already exists"⟩, []⟩
      else
        commit fold h { cfg with ModelFallbacks := cfg.ModelFallbacks ++ [fb] } persistOk

/-- The space skipping of Go `fmt.Sscanf` before a verb: spaces are skipped, a
newline is an error (`none`). -/
def skipSpace : List Char → Option (List Char)
  | [] => some []
  | c :: rest =>
    if c = '\n' then none
    else if isSpace c then skipSpace rest
    else some (c :: rest)

/-- Go `fmt.Sscanf(s, "%d", &idx)`: after the leading spaces an optional sign and
at least one decimal digit, read as a 64-bit integer; whatever follows the
digits is left unread.  `none` is a non-nil error. -/
def sscanfInt (s : String) : Option Int :=
  match skipSpace s.data with
  | none => none
  | some cs =>
    let neg := cs.head? = some '-'
    let body := if cs.head? = some '-' ∨ cs.head? = some '+' then cs.tail else cs
    let digits := body.takeWhile Char.isDigit
    if digits = [] then none
    else
      let n : Nat := digits.foldl (fun acc c => 10 * acc + (c.toNat - 48)) 0
      let v : Int := if neg then -(n : Int) else (n : Int)
      if -(2 : Int) ^ 63 ≤ v ∧ v < (2 : Int) ^ 63 then some v else none

/-- The first selector of `DeleteModelFallbacks`: a numeric position within
bounds removes that entry. -/
def deleteByIndex (fold : Char → Char) (h : Handler) (cfg : Config) (q : DeleteQuery)
    (persistOk : Bool) : Option Result :=
  if q.index ≠ "" then
    match sscanfInt q.index with
    | some idx =>
      if 0 ≤ idx ∧ idx < (cfg.ModelFallbacks.length : Int) then
        some (commit fold h
          { cfg with ModelFallbacks := cfg.ModelFallbacks.eraseIdx idx.toNat } persistOk)
      else none
    | none => none
  else none

/-- The second selector of `DeleteModelFallbacks`: a `from` without a `to`
removes every rule whose `From` folds to it, when there is one. -/
def deleteByFrom (fold : Char → Char) (h : Handler) (cfg : Config) (q : DeleteQuery)
    (persistOk : Bool) : Option Result :=
  let fromT := trimSpace q.fromQ
  let toT := trimSpace q.toQ
  if fromT ≠ "" ∧ toT = "" then
    let out := cfg.ModelFallbacks.filter (fun fb => !equalFold fold fb.From fromT)
    if out.length ≠ cfg.ModelFallbacks.length then
      some (commit fold h { cfg with ModelFallbacks := out } persistOk)
    else none
  else none

/-- The third selector of `DeleteModelFallbacks`: a `from` with a `to` removes
every rule that folds to the pair, when there is one. -/
def deleteByPair (fold : Char → Char) (h : Handler) (cfg : Config) (q : DeleteQuery)
    (persistOk : Bool) : Option Result :=
  let fromT := trimSpace q.fromQ
  let toT := trimSpace q.toQ
  if fromT ≠ "" ∧ toT ≠ "" then
    let hit (fb : ModelFallback) : Bool :=
      equalFold fold fb.From fromT && equalFold fold fb.To toT
    let out := cfg.ModelFallbacks.filter (fun fb => !hit fb)
    let removed := cfg.ModelFallbacks.any hit
    if removed then
      some (commit fold h { cfg with ModelFallbacks := out } persistOk)
    else none
  else none

/-- Go `DeleteModelFallbacks`. -/
def DeleteModelFallbacks (fold : Char → Char) (h : Handler) (q : DeleteQuery)
    (persistOk : Bool) : Result :=
  match h.cfg with
  | none => ⟨h, ⟨200, .status "ok"⟩, []⟩
  | some cfg =>
    if cfg.ModelFallbacks.length = 0 then ⟨h, ⟨200, .status "ok"⟩, []⟩
    else
      match deleteByIndex fold h cfg q persistOk with
      | some r => r
      | none =>
        match deleteByFrom fold h cfg q persistOk with
        | some r => r
        | none =>
          match deleteByPair fold h cfg q persistOk with
          | some r => r
          | none => ⟨h, ⟨400, .error "fallback not found"⟩, []⟩

/-- The rule set a handler holds; empty when there is no configuration. -/
def Handler.rules (h : Handler) : List ModelFallback :=
  match h.cfg with
  | none => []
  | some cfg => cfg.ModelFallbacks

/-- An external mutation of the rule store. -/
inductive Mutation where
  | replace (req : Payload PutBody)
  | add (req : Payload ModelFallback)
  | delete (q : DeleteQuery)

/-- One mutation applied to a handler, with the verdict of the persistence
collaborator. -/
def Mutation.apply (fold : Char → Char) (h : Handler) (persistOk : Bool) : Mutation → Result
  | .replace req => PutModelFallbacks fold h req persistOk
  | .add req => PostModelFallbacks fold h req persistOk
  | .delete q => DeleteModelFallbacks fold h q persistOk

/-! ### The selectors of a delete request -/

/-- The reply of a delete request that selects nothing. -/
def notFound (h : Handler) : Result :=
  ⟨h, ⟨400, .error "fallback not found"⟩, []⟩

/-- Selector (a) of a delete request on a list of `n` rules: the position the
`index` parameter denotes, when it is present, scans as an integer and lies
within bounds. -/
def selectedIndex (n : Nat) (q : DeleteQuery) : Option Nat :=
  if q.index = "" then none
  else
    match sscanfInt q.index with
    | some i => if 0 ≤ i ∧ i < (n : Int) then some i.toNat else none
    | none => none

/-- Selectors (b) and (c) of a delete request: with a `from` and no `to`, the
rules whose `From` folds to it; with both, the rules that fold to the pair;
without a `from`, no rule. -/
def selectedBy (fold : Char → Char) (q : DeleteQuery) (r : ModelFallback) : Bool :=
  if trimSpace q.fromQ = "" then false
  else if trimSpace q.toQ = "" then equalFold fold r.From (trimSpace q.fromQ)
  else equalFold fold r.From (trimSpace q.fromQ) && equalFold fold r.To (trimSpace q.toQ)

/-- A decimal numeral: an optional sign followed by one or more digits and
nothing else. -/
def isNumeral (s : String) : Bool :=
  let body := if s.data.head? = some '-' ∨ s.data.head? = some '+' then s.data.tail else s.data
  !body.isEmpty && body.all Char.isDigit

/-- A folding that never identifies a space with a character that is not one;
the simple case folding of Unicode is such a folding, spaces having no case
variants. -/
def SpaceStable (fold : Char → Char) : Prop :=
  ∀ c d : Char, fold c = fold d → isSpace c = isSpace d

/-! ## Known model names (`GetAvailableModels`, model_fallbacks.go) -/

/-- Go `models[k] = v` on a `map[string]bool`, kept as an association list
without repeated keys. -/
def mapSet (m : List (String × Bool)) (k : String) (v : Bool) : List (String × Bool) :=
  if m.any (fun e => e.1 == k) then m.map (fun e => if e.1 == k then (e.1, v) else e)
  else m ++ [(k, v)]

/-- The keys of the map, each once. -/
def mapKeys (m : List (String × Bool)) : List String :=
  m.map Prod.fst

/-- The loop over the models of one provider key: the name is stored, and the
alias when it is not empty. -/
def setModels (models : List (String × Bool)) (ms : List ProviderModel) :
    List (String × Bool) :=
  ms.foldl (fun acc m =>
    let acc1 := mapSet acc m.Name true
    if m.Alias ≠ "" then mapSet acc1 m.Alias true else acc1) models

/-- The loop over `cfg.GeminiKey`: the API key of each entry is stored with the
value `false`, then its models. -/
def setGeminiKeys (models : List (String × Bool)) (keys : List GeminiKey) :
    List (String × Bool) :=
  keys.foldl (fun acc key => setModels (mapSet acc key.APIKey false) key.Models) models

/-- The loops over `cfg.ClaudeKey`, `cfg.CodexKey`, `cfg.OpenAICompatibility` and
`cfg.VertexCompatAPIKey`: only the models of each entry are stored. -/
def setProviderKeys (models : List (String × Bool)) (keys : List ProviderKey) :
    List (String × Bool) :=
  keys.foldl (fun acc key => setModels acc key.Models) models

/-- The loop over `cfg.AmpCode.ModelMappings`. -/
def setMappings (models : List (String × Bool)) (ms : List AmpModelMapping) :
    List (String × Bool) :=
  ms.foldl (fun acc mp => mapSet (mapSet acc mp.From true) mp.To true) models

/-- The loop over `cfg.ModelFallbacks`. -/
def setFallbacks (models : List (String × Bool)) (fbs : List ModelFallback) :
    List (String × Bool) :=
  fbs.foldl (fun acc fb => mapSet (mapSet acc fb.From true) fb.To true) models

/-- The static seed list `commonModels`. -/
def commonModels : List String :=
  ["gemini-2.5-flash", "gemini-2.5-pro", "gemini-2.0-flash-exp",
   "claude-sonnet-4", "claude-haiku-3-5", "claude-opus-4",
   "gpt-4o", "gpt-4o-mini", "gpt-4-turbo"]

/-- The loop over `commonModels`. -/
def setCommon (models : List (String × Bool)) : List (String × Bool) :=
  commonModels.foldl (fun acc m => mapSet acc m true) models

/-- The map `models` of `GetAvailableModels` once every loop has run. -/
def modelMap (cfg : Config) : List (String × Bool) :=
  let m1 := setGeminiKeys [] cfg.GeminiKey
  let m2 := setProviderKeys m1 cfg.ClaudeKey
  let m3 := setProviderKeys m2 cfg.CodexKey
  let m4 := setProviderKeys m3 cfg.OpenAICompatibility
  let m5 := setProviderKeys m4 cfg.VertexCompatAPIKey
  let m6 := setMappings m5 cfg.AmpCode.ModelMappings
  let m7 := setFallbacks m6 cfg.ModelFallbacks
  setCommon m7

/-- Go `a > b` on strings: bytewise comparison of the UTF-8 encodings, which is
the lexicographic comparison of the code points. -/
def strGt (a b : String) : Bool :=
  decide (b.data < a.data)

/-- The inner `for j` loop of the sort at position `i`: `x` is `modelList[i]`,
`rest` the entries after it; an entry smaller than the current `modelList[i]`
is swapped with it.  Returns the final `modelList[i]` and the entries after
it. -/
def sortInner (x : String) : List String → String × List String
  | [] => (x, [])
  | y :: ys =>
    if strGt x y then
      let p := sortInner y ys
      (p.1, x :: p.2)
    else
      let p := sortInner x ys
      (p.1, y :: p.2)

/-- The outer `for i` loop of the sort, `fuel` iterations of it. -/
def sortOuter : Nat → List String → List String
  | 0, l => l
  | _ + 1, [] => []
  | fuel + 1, x :: xs =>
    let p := sortInner x xs
    p.1 :: sortOuter fuel p.2

/-- The exchange sort at the end of `GetAvailableModels`: one outer iteration
for each position of the list. -/
def exchangeSort (l : List String) : List String :=
  sortOuter l.length l

/-- The names `GetAvailableModels` lists for a configuration.  The map is ranged
in insertion order here; Go ranges it in an unspecified order, and
`exchangeSort_order_irrelevant` shows that the sorted list does not depend on
it. -/
def availableModels (cfg : Config) : List String :=
  exchangeSort (mapKeys (modelMap cfg))

/-- Go `GetAvailableModels`; `none` is the nil handler. -/
def GetAvailableModels (h : Option Handler) : Reply :=
  match h with
  | none => ⟨200, .models []⟩
  | some hh =>
    match hh.cfg with
    | none => ⟨200, .models []⟩
    | some cfg => ⟨200, .models (availableModels cfg)⟩

/-- The names one provider model stores. -/
def storesModel (m : ProviderModel) (x : String) : Prop :=
  x = m.Name ∨ (m.Alias ≠ "" ∧ x = m.Alias)

/-- The names the listing is documented to hold: the model names and non-empty
aliases of the provider entries, the ends of the model mappings and of the
fallback rules, and the seed names. -/
def isModelName (cfg : Config) (x : String) : Prop :=
  (∃ pm ∈ cfg.GeminiKey.flatMap (fun k => k.Models) ++ cfg.ClaudeKey.flatMap (fun k => k.Models) ++
      cfg.CodexKey.flatMap (fun k => k.Models) ++ cfg.OpenAICompatibility.flatMap (fun k => k.Models) ++
      cfg.VertexCompatAPIKey.flatMap (fun k => k.Models),
    storesModel pm x) ∨
  (∃ mp ∈ cfg.AmpCode.ModelMappings, x = mp.From ∨ x = mp.To) ∨
  (∃ fb ∈ cfg.ModelFallbacks, x = fb.From ∨ x = fb.To) ∨
  x ∈ commonModels

/-! ## Strings: folding and trimming -/

theorem equalFold_iff (fold : Char → Char) (s t : String) :
    equalFold fold s t = true ↔ s.data.map fold = t.data.map fold := by
  simp [equalFold]

theorem equalFold_refl (fold : Char → Char) (s : String) : equalFold fold s s = true := by
  simp [equalFold]

theorem equalFold_symm (fold : Char → Char) (s t : String) :
    equalFold fold s t = equalFold fold t s := by
  rw [Bool.eq_iff_iff, equalFold_iff, equalFold_iff]
  exact eq_comm

theorem equalFold_trans (fold : Char → Char) {s t u : String}
    (h1 : equalFold fold s t = true) (h2 : equalFold fold t u = true) :
    equalFold fold s u = true := by
  rw [equalFold_iff] at *
  exact h1.trans h2

/-- Folding equal strings have the same verdict against any third string. -/
theorem equalFold_congr_left (fold : Char → Char) {s t : String}
    (h : equalFold fold s t = true) (u : String) :
    equalFold fold s u = equalFold fold t u := by
  rw [Bool.eq_iff_iff]
  constructor
  · intro hs
    exact equalFold_trans fold (by rw [equalFold_symm]; exact h) hs
  · intro ht
    exact equalFold_trans fold h ht

theorem sameRule_iff (fold : Char → Char) (a b : ModelFallback) :
    sameRule fold a b = true ↔
      equalFold fold a.From b.From = true ∧ equalFold fold a.To b.To = true := by
  simp [sameRule]

theorem sameRule_refl (fold : Char → Char) (a : ModelFallback) : sameRule fold a a = true := by
  simp [sameRule, equalFold_refl]

theorem sameRule_symm (fold : Char → Char) (a b : ModelFallback) :
    sameRule fold a b = sameRule fold b a := by
  simp [sameRule, equalFold_symm fold a.From, equalFold_symm fold a.To]

theorem sameRule_trans (fold : Char → Char) {a b c : ModelFallback}
    (h1 : sameRule fold a b = true) (h2 : sameRule fold b c = true) :
    sameRule fold a c = true := by
  rw [sameRule_iff] at *
  exact ⟨equalFold_trans fold h1.1 h2.1, equalFold_trans fold h1.2 h2.2⟩

theorem string_ne_empty_iff (s : String) : s ≠ "" ↔ s.data ≠ [] := by
  constructor
  · intro h hd
    exact h (String.ext hd)
  · intro h hs
    exact h (by rw [hs])

/-- The head of a list that neither starts nor ends with a space survives
trimming, and so does everything else. -/
theorem trimChars_eq_self {cs : List Char}
    (hh : (cs.head?.all fun c => !isSpace c) = true)
    (hl : (cs.getLast?.all fun c => !isSpace c) = true) : trimChars cs = cs := by
  have h1 : cs.dropWhile isSpace = cs := by
    rw [List.dropWhile_eq_self_iff]
    intro hpos
    cases cs with
    | nil => simp at hpos
    | cons c rest => simpa using hh
  unfold trimChars
  rw [h1, List.rdropWhile_eq_self_iff]
  intro hne
  rw [List.getLast?_eq_getLast cs hne] at hl
  simpa using hl

theorem trimChars_head (cs : List Char) :
    ((trimChars cs).head?.all fun c => !isSpace c) = true := by
  unfold trimChars
  by_cases hne : (cs.dropWhile isSpace).rdropWhile isSpace = []
  · rw [hne]; rfl
  · have hpre : (cs.dropWhile isSpace).rdropWhile isSpace <+: cs.dropWhile isSpace :=
      List.rdropWhile_prefix isSpace _
    have hne2 : cs.dropWhile isSpace ≠ [] := by
      intro h0
      rw [h0] at hne
      exact hne (by simp)
    have hhead := hpre.head hne
    rw [List.head?_eq_head hne, hhead]
    have := List.head_dropWhile_not isSpace cs hne2
    simp [this]

theorem trimChars_last (cs : List Char) :
    ((trimChars cs).getLast?.all fun c => !isSpace c) = true := by
  unfold trimChars
  by_cases hne : (cs.dropWhile isSpace).rdropWhile isSpace = []
  · rw [hne]; rfl
  · rw [List.getLast?_eq_getLast _ hne]
    have := List.rdropWhile_last_not isSpace _ hne
    simpa using this

theorem outerSpaceFree_trimSpace (s : String) : outerSpaceFree (trimSpace s) = true := by
  simp only [outerSpaceFree, trimSpace, Bool.and_eq_true]
  exact ⟨trimChars_head s.data, trimChars_last s.data⟩

theorem trimSpace_eq_self {s : String} (h : outerSpaceFree s = true) : trimSpace s = s := by
  simp only [outerSpaceFree, Bool.and_eq_true] at h
  apply String.ext
  exact trimChars_eq_self h.1 h.2

theorem trimSpace_idem (s : String) : trimSpace (trimSpace s) = trimSpace s :=
  trimSpace_eq_self (outerSpaceFree_trimSpace s)

/-! ## Sanitizer: the loop against the wording of the specification -/

theorem validRule_trimRule_false (fold : Char → Char) (fb : ModelFallback)
    (h : (trimSpace fb.From = "" ∨ trimSpace fb.To = "") ∨
      equalFold fold (trimSpace fb.From) (trimSpace fb.To) = true) :
    validRule fold (trimRule fb) = false := by
  simp only [validRule, trimRule]
  rcases h with (h | h) | h
  · simp [h]
  · simp [h]
  · simp [h]

theorem validRule_trimRule_true (fold : Char → Char) (fb : ModelFallback)
    (h1 : ¬(trimSpace fb.From = "" ∨ trimSpace fb.To = ""))
    (h2 : ¬equalFold fold (trimSpace fb.From) (trimSpace fb.To) = true) :
    validRule fold (trimRule fb) = true := by
  simp only [validRule, trimRule]
  push_neg at h1
  simp [h1.1, h1.2, h2]

theorem sanitizeSpec_cons_drop (fold : Char → Char) (fb : ModelFallback)
    (rest : List ModelFallback) (hv : validRule fold (trimRule fb) = false) :
    sanitizeSpec fold (fb :: rest) = sanitizeSpec fold rest := by
  simp [sanitizeSpec, hv]

theorem sanitizeSpec_cons_keep (fold : Char → Char) (fb : ModelFallback)
    (rest : List ModelFallback) (hv : validRule fold (trimRule fb) = true) :
    sanitizeSpec fold (fb :: rest) =
      trimRule fb :: (sanitizeSpec fold rest).filter (fun y => !sameRule fold (trimRule fb) y) := by
  simp [sanitizeSpec, hv, keepFirst]

theorem sanitizeLoop_cons (fold : Char → Char) (out : List ModelFallback) (fb : ModelFallback)
    (rest : List ModelFallback) :
    sanitizeLoop fold out (fb :: rest) =
      if trimSpace fb.From = "" ∨ trimSpace fb.To = "" then sanitizeLoop fold out rest
      else if equalFold fold (trimSpace fb.From) (trimSpace fb.To) = true then
        sanitizeLoop fold out rest
      else if out.any (fun r => sameRule fold r ⟨trimSpace fb.From, trimSpace fb.To⟩) = true then
        sanitizeLoop fold out rest
      else sanitizeLoop fold (out ++ [⟨trimSpace fb.From, trimSpace fb.To⟩]) rest := rfl

/-- The loop started on the retained rules `out` appends to them the rules the
specification's wording keeps, except those that match a rule of `out`. -/
theorem sanitizeLoop_eq (fold : Char → Char) (rules : List ModelFallback) :
    ∀ out : List ModelFallback,
      sanitizeLoop fold out rules =
        out ++ (sanitizeSpec fold rules).filter
          (fun y => !out.any (fun r => sameRule fold r y)) := by
  induction rules with
  | nil => intro out; simp [sanitizeLoop, sanitizeSpec, keepFirst]
  | cons fb rest ih =>
    intro out
    rw [sanitizeLoop_cons]
    by_cases h1 : trimSpace fb.From = "" ∨ trimSpace fb.To = ""
    · rw [if_pos h1]
      rw [ih, sanitizeSpec_cons_drop fold fb rest (validRule_trimRule_false fold fb (Or.inl h1))]
    · by_cases h2 : equalFold fold (trimSpace fb.From) (trimSpace fb.To) = true
      · rw [if_neg h1, if_pos h2]
        rw [ih, sanitizeSpec_cons_drop fold fb rest
          (validRule_trimRule_false fold fb (Or.inr h2))]
      · have hv := validRule_trimRule_true fold fb h1 h2
        rw [sanitizeSpec_cons_keep fold fb rest hv]
        by_cases h3 : out.any (fun r => sameRule fold r ⟨trimSpace fb.From, trimSpace fb.To⟩) = true
        · rw [if_neg h1, if_neg h2, if_pos h3]
          rw [ih]
          have hdrop : (!out.any (fun r => sameRule fold r (trimRule fb))) = false := by
            simpa [trimRule] using h3
          rw [List.filter_cons, hdrop]
          simp only [Bool.false_eq_true, if_false, List.filter_filter]
          congr 1
          apply List.filter_congr
          intro y _
          by_cases hy : out.any (fun r => sameRule fold r y) = true
          · simp [hy]
          · have hxy : sameRule fold (trimRule fb) y = false := by
              by_contra hc
              rw [Bool.not_eq_false] at hc
              apply hy
              rw [List.any_eq_true] at h3 ⊢
              obtain ⟨o, ho, hso⟩ := h3
              exact ⟨o, ho, sameRule_trans fold hso hc⟩
            simp [hxy]
        · rw [if_neg h1, if_neg h2, if_neg h3]
          rw [ih]
          have hkeep : (!out.any (fun r => sameRule fold r (trimRule fb))) = true := by
            simpa [trimRule] using h3
          rw [List.filter_cons, hkeep]
          simp only [if_true, List.filter_filter, List.append_assoc, List.singleton_append]
          congr 2
          apply List.filter_congr
          intro y _
          simp only [List.any_append, List.any_cons, List.any_nil, Bool.or_false, Bool.not_or,
            trimRule]

theorem sanitizeRules_eq_spec (fold : Char → Char) (rules : List ModelFallback) :
    sanitizeRules fold rules = sanitizeSpec fold rules := by
  unfold sanitizeRules
  rw [sanitizeLoop_eq]
  simp

/-! ## Keeping first occurrences -/

theorem keepFirst_sublist (fold : Char → Char) (l : List ModelFallback) :
    (keepFirst fold l).Sublist l := by
  induction l with
  | nil => exact List.Sublist.refl _
  | cons r rest ih =>
    simp only [keepFirst]
    exact List.Sublist.cons₂ r ((List.filter_sublist _).trans ih)

theorem keepFirst_pairwise (fold : Char → Char) (l : List ModelFallback) :
    (keepFirst fold l).Pairwise (fun a b => sameRule fold a b = false) := by
  induction l with
  | nil => exact List.Pairwise.nil
  | cons r rest ih =>
    simp only [keepFirst]
    rw [List.pairwise_cons]
    refine ⟨?_, ih.sublist (List.filter_sublist _)⟩
    intro y hy
    rw [List.mem_filter] at hy
    simpa using hy.2

/-- A rule with no equal rule before it is kept. -/
theorem keepFirst_mem_first (fold : Char → Char) (pre : List ModelFallback) (x : ModelFallback)
    (post : List ModelFallback) (h : ∀ p ∈ pre, sameRule fold p x = false) :
    x ∈ keepFirst fold (pre ++ x :: post) := by
  induction pre with
  | nil => simp [keepFirst]
  | cons p pre ih =>
    simp only [List.cons_append, keepFirst]
    apply List.mem_cons_of_mem
    rw [List.mem_filter]
    refine ⟨ih (fun q hq => h q (List.mem_cons_of_mem _ hq)), ?_⟩
    simp [h p (List.mem_cons_self _ _)]

theorem keepFirst_eq_self (fold : Char → Char) {l : List ModelFallback}
    (h : l.Pairwise (fun a b => sameRule fold a b = false)) : keepFirst fold l = l := by
  induction l with
  | nil => rfl
  | cons r rest ih =>
    rw [List.pairwise_cons] at h
    simp only [keepFirst]
    rw [ih h.2, List.filter_eq_self.mpr]
    intro y hy
    simp [h.1 y hy]

/-! ## Sanitizer: invariants and fixed points -/

theorem ruleOk_of_valid_trim (fold : Char → Char) (fb : ModelFallback)
    (hv : validRule fold (trimRule fb) = true) : RuleOk fold (trimRule fb) := by
  simp only [validRule, trimRule, Bool.and_eq_true, bne_iff_ne, ne_eq, Bool.not_eq_true'] at hv
  exact ⟨hv.1.1, hv.1.2, outerSpaceFree_trimSpace _, outerSpaceFree_trimSpace _, hv.2⟩

theorem trimRule_eq_self (fold : Char → Char) {r : ModelFallback} (h : RuleOk fold r) :
    trimRule r = r := by
  obtain ⟨_, _, h3, h4, _⟩ := h
  cases r with
  | mk f t =>
    simp only [trimRule]
    rw [trimSpace_eq_self h3, trimSpace_eq_self h4]

theorem validRule_of_ruleOk (fold : Char → Char) {r : ModelFallback} (h : RuleOk fold r) :
    validRule fold r = true := by
  obtain ⟨h1, h2, _, _, h5⟩ := h
  simp [validRule, h1, h2, h5]

theorem wellFormed_sanitizeRules (fold : Char → Char) (rules : List ModelFallback) :
    WellFormed fold (sanitizeRules fold rules) := by
  rw [sanitizeRules_eq_spec]
  refine ⟨?_, keepFirst_pairwise fold _⟩
  intro r hr
  have hr2 := (keepFirst_sublist fold _).subset hr
  rw [List.mem_filter, List.mem_map] at hr2
  obtain ⟨⟨fb, _, rfl⟩, hv⟩ := hr2
  exact ruleOk_of_valid_trim fold fb hv

theorem sanitizeRules_of_wellFormed (fold : Char → Char) {rules : List ModelFallback}
    (h : WellFormed fold rules) : sanitizeRules fold rules = rules := by
  rw [sanitizeRules_eq_spec]
  unfold sanitizeSpec
  have hmap : rules.map trimRule = rules := by
    conv_rhs => rw [← List.map_id rules]
    apply List.map_congr_left
    intro r hr
    exact trimRule_eq_self fold (h.1 r hr)
  have hfil : rules.filter (validRule fold) = rules := by
    rw [List.filter_eq_self]
    intro r hr
    exact validRule_of_ruleOk fold (h.1 r hr)
  rw [hmap, hfil, keepFirst_eq_self fold h.2]

theorem sanitizeDepth_idem (d : Option Int) : sanitizeDepth (sanitizeDepth d) = sanitizeDepth d := by
  cases d with
  | none => rfl
  | some n =>
    by_cases hn : n < 0
    · simp [sanitizeDepth, hn]
    · simp [sanitizeDepth, hn]

/-! ## Single-hop lookup -/

theorem lookupLoop_no_match (fold : Char → Char) (model : String) (rules : List ModelFallback)
    (h : ∀ r ∈ rules, equalFold fold r.From model = false) :
    lookupLoop fold model rules = "" := by
  induction rules with
  | nil => rfl
  | cons fb rest ih =>
    simp only [lookupLoop, h fb (List.mem_cons_self _ _), Bool.false_eq_true, if_false]
    exact ih (fun r hr => h r (List.mem_cons_of_mem _ hr))

theorem lookupLoop_first_match (fold : Char → Char) (model : String)
    (pre : List ModelFallback) (r : ModelFallback) (post : List ModelFallback)
    (hpre : ∀ p ∈ pre, equalFold fold p.From model = false)
    (hr : equalFold fold r.From model = true) :
    lookupLoop fold model (pre ++ r :: post) = r.To := by
  induction pre with
  | nil => simp [lookupLoop, hr]
  | cons p pre ih =>
    simp only [List.cons_append, lookupLoop, hpre p (List.mem_cons_self _ _),
      Bool.false_eq_true, if_false]
    exact ih (fun q hq => hpre q (List.mem_cons_of_mem _ hq))

/-! ## Resolver -/

theorem resolveLoop_succ (fold : Char → Char) (rules : List ModelFallback) (fuel : Nat)
    (seen : List String) (cur : String) :
    resolveLoop fold rules (fuel + 1) seen cur =
      if lookup fold rules cur = "" then []
      else if seen.any (fun s => equalFold fold s (lookup fold rules cur)) = true then []
      else lookup fold rules cur ::
        resolveLoop fold rules fuel (seen ++ [lookup fold rules cur]) (lookup fold rules cur) :=
  rfl

theorem resolveLoop_length (fold : Char → Char) (rules : List ModelFallback) :
    ∀ (fuel : Nat) (seen : List String) (cur : String),
      (resolveLoop fold rules fuel seen cur).length ≤ fuel := by
  intro fuel
  induction fuel with
  | zero => intro seen cur; simp [resolveLoop]
  | succ n ih =>
    intro seen cur
    rw [resolveLoop_succ]
    by_cases h1 : lookup fold rules cur = ""
    · rw [if_pos h1]; simp
    · rw [if_neg h1]
      by_cases h2 : seen.any (fun s => equalFold fold s (lookup fold rules cur)) = true
      · rw [if_pos h2]; simp
      · rw [if_neg h2, List.length_cons]
        exact Nat.succ_le_succ (ih _ _)

/-- No model of the chain folds to a model seen before the traversal, and no
two models of the chain fold to each other. -/
theorem resolveLoop_fresh (fold : Char → Char) (rules : List ModelFallback) :
    ∀ (fuel : Nat) (seen : List String) (cur : String),
      (∀ x ∈ resolveLoop fold rules fuel seen cur, ∀ s ∈ seen, equalFold fold s x = false) ∧
        (resolveLoop fold rules fuel seen cur).Pairwise
          (fun a b => equalFold fold a b = false) := by
  intro fuel
  induction fuel with
  | zero => intro seen cur; simp [resolveLoop]
  | succ n ih =>
    intro seen cur
    rw [resolveLoop_succ]
    by_cases h1 : lookup fold rules cur = ""
    · rw [if_pos h1]; simp
    · rw [if_neg h1]
      by_cases h2 : seen.any (fun s => equalFold fold s (lookup fold rules cur)) = true
      · rw [if_pos h2]; simp
      · rw [if_neg h2]
        obtain ⟨ih1, ih2⟩ := ih (seen ++ [lookup fold rules cur]) (lookup fold rules cur)
        refine ⟨?_, ?_⟩
        · intro x hx s hs
          rw [List.mem_cons] at hx
          rcases hx with rfl | hx
          · by_contra hc
            rw [Bool.not_eq_false] at hc
            apply h2
            rw [List.any_eq_true]
            exact ⟨s, hs, hc⟩
          · exact ih1 x hx s (List.mem_append_left _ hs)
        · rw [List.pairwise_cons]
          refine ⟨?_, ih2⟩
          intro x hx
          exact ih1 x hx _ (List.mem_append_right _ (List.mem_singleton_self _))

/-! ## Handlers: every path either leaves the handler alone or commits -/

theorem commit_handler (fold : Char → Char) (h : Handler) (cfg : Config) (ok : Bool) :
    (commit fold h cfg ok).handler = { h with cfg := some (SanitizeModelFallbacks fold cfg) } := by
  cases ok <;> rfl

theorem commit_rules (fold : Char → Char) (h : Handler) (cfg : Config) (ok : Bool) :
    (commit fold h cfg ok).handler.rules = sanitizeRules fold cfg.ModelFallbacks := by
  rw [commit_handler]
  rfl

theorem commit_events (fold : Char → Char) (h : Handler) (cfg : Config) (ok : Bool) :
    (commit fold h cfg ok).events =
      if ok then
        Event.persist (SanitizeModelFallbacks fold cfg) true ::
          (if h.authManager then [Event.notify (SanitizeModelFallbacks fold cfg)] else [])
      else [Event.persist (SanitizeModelFallbacks fold cfg) false] := by
  cases ok <;> rfl

theorem commit_event_rules (fold : Char → Char) (h : Handler) (cfg : Config) (ok : Bool) :
    ∀ e ∈ (commit fold h cfg ok).events,
      e.config.ModelFallbacks = sanitizeRules fold cfg.ModelFallbacks := by
  intro e he
  rw [commit_events] at he
  cases ok with
  | false =>
    simp only [Bool.false_eq_true, if_false, List.mem_singleton] at he
    rw [he]; rfl
  | true =>
    simp only [if_true, List.mem_cons] at he
    rcases he with rfl | he
    · rfl
    · by_cases ham : h.authManager = true
      · simp only [ham, if_true, List.mem_singleton] at he
        rw [he]; rfl
      · simp [ham] at he

theorem deleteByIndex_cases (fold : Char → Char) (h : Handler) (cfg : Config) (q : DeleteQuery)
    (ok : Bool) (r : Result) (hr : deleteByIndex fold h cfg q ok = some r) :
    ∃ cfg1, r = commit fold h cfg1 ok := by
  unfold deleteByIndex at hr
  split at hr
  · split at hr
    · split at hr
      · exact ⟨_, (Option.some.inj hr).symm⟩
      · cases hr
    · cases hr
  · cases hr

theorem deleteByFrom_cases (fold : Char → Char) (h : Handler) (cfg : Config) (q : DeleteQuery)
    (ok : Bool) (r : Result) (hr : deleteByFrom fold h cfg q ok = some r) :
    ∃ cfg1, r = commit fold h cfg1 ok := by
  simp only [deleteByFrom] at hr
  split at hr
  · split at hr
    · exact ⟨_, (Option.some.inj hr).symm⟩
    · cases hr
  · cases hr

theorem deleteByPair_cases (fold : Char → Char) (h : Handler) (cfg : Config) (q : DeleteQuery)
    (ok : Bool) (r : Result) (hr : deleteByPair fold h cfg q ok = some r) :
    ∃ cfg1, r = commit fold h cfg1 ok := by
  simp only [deleteByPair] at hr
  split at hr
  · split at hr
    · exact ⟨_, (Option.some.inj hr).symm⟩
    · cases hr
  · cases hr

/-- Every mutation either replies without touching the handler or its
collaborators, or ends in `commit`. -/
theorem apply_cases (fold : Char → Char) (h : Handler) (ok : Bool) (m : Mutation) :
    (∃ reply, m.apply fold h ok = ⟨h, reply, []⟩) ∨
      (∃ cfg1, m.apply fold h ok = commit fold h cfg1 ok) := by
  cases m with
  | replace req =>
    simp only [Mutation.apply, PutModelFallbacks]
    cases req with
    | unreadable => exact Or.inl ⟨_, rfl⟩
    | invalid => exact Or.inl ⟨_, rfl⟩
    | parsed body =>
      cases hc : h.cfg with
      | none => exact Or.inl ⟨_, rfl⟩
      | some cfg => exact Or.inr ⟨_, rfl⟩
  | add req =>
    simp only [Mutation.apply, PostModelFallbacks]
    cases req with
    | unreadable => exact Or.inl ⟨_, rfl⟩
    | invalid => exact Or.inl ⟨_, rfl⟩
    | parsed fb =>
      cases hc : h.cfg with
      | none => exact Or.inl ⟨_, rfl⟩
      | some cfg =>
        simp only
        split
        · exact Or.inl ⟨_, rfl⟩
        · exact Or.inr ⟨_, rfl⟩
  | delete q =>
    simp only [Mutation.apply, DeleteModelFallbacks]
    cases hc : h.cfg with
    | none => exact Or.inl ⟨_, rfl⟩
    | some cfg =>
      simp only
      split
      · exact Or.inl ⟨_, rfl⟩
      · cases h1 : deleteByIndex fold h cfg q ok with
        | some r => exact Or.inr (deleteByIndex_cases fold h cfg q ok r h1)
        | none =>
          cases h2 : deleteByFrom fold h cfg q ok with
          | some r => exact Or.inr (deleteByFrom_cases fold h cfg q ok r h2)
          | none =>
            cases h3 : deleteByPair fold h cfg q ok with
            | some r => exact Or.inr (deleteByPair_cases fold h cfg q ok r h3)
            | none => exact Or.inl ⟨_, rfl⟩

/-! ## Delete: the handler in terms of its selectors -/

theorem wellFormed_sublist (fold : Char → Char) {l1 l2 : List ModelFallback}
    (hsub : l1.Sublist l2) (h : WellFormed fold l2) : WellFormed fold l1 :=
  ⟨fun r hr => h.1 r (hsub.subset hr), h.2.sublist hsub⟩

theorem sscanfInt_empty : sscanfInt "" = none := by decide

theorem deleteByIndex_eq (fold : Char → Char) (h : Handler) (cfg : Config) (q : DeleteQuery)
    (ok : Bool) :
    deleteByIndex fold h cfg q ok =
      (selectedIndex cfg.ModelFallbacks.length q).map (fun i =>
        commit fold h { cfg with ModelFallbacks := cfg.ModelFallbacks.eraseIdx i } ok) := by
  unfold deleteByIndex selectedIndex
  by_cases hq : q.index = ""
  · simp [hq]
  · rw [if_pos hq, if_neg hq]
    cases hs : sscanfInt q.index with
    | none => rfl
    | some idx =>
      simp only
      by_cases hb : 0 ≤ idx ∧ idx < (cfg.ModelFallbacks.length : Int)
      · rw [if_pos hb, if_pos hb]; rfl
      · rw [if_neg hb, if_neg hb]; rfl

theorem any_not_of_filter_length {α : Type} (p : α → Bool) (l : List α) :
    (l.filter (fun x => !p x)).length ≠ l.length ↔ l.any p = true := by
  rw [ne_eq, List.filter_length_eq_length, List.any_eq_true]
  constructor
  · intro hne
    by_contra hc
    apply hne
    intro a ha
    by_contra hpa
    apply hc
    exact ⟨a, ha, by simpa using hpa⟩
  · rintro ⟨a, ha, hpa⟩ hall
    have := hall a ha
    simp [hpa] at this

theorem deleteByFrom_eq (fold : Char → Char) (h : Handler) (cfg : Config) (q : DeleteQuery)
    (ok : Bool) :
    deleteByFrom fold h cfg q ok =
      if trimSpace q.fromQ ≠ "" ∧ trimSpace q.toQ = "" ∧
          cfg.ModelFallbacks.any (fun fb => equalFold fold fb.From (trimSpace q.fromQ)) = true then
        some (commit fold h
          { cfg with ModelFallbacks :=
              cfg.ModelFallbacks.filter (fun fb => !equalFold fold fb.From (trimSpace q.fromQ)) } ok)
      else none := by
  simp only [deleteByFrom]
  by_cases h1 : trimSpace q.fromQ ≠ "" ∧ trimSpace q.toQ = ""
  · rw [if_pos h1]
    by_cases h2 : cfg.ModelFallbacks.any
        (fun fb => equalFold fold fb.From (trimSpace q.fromQ)) = true
    · rw [if_pos ((any_not_of_filter_length _ _).mpr h2), if_pos ⟨h1.1, h1.2, h2⟩]
    · rw [if_neg (fun hc => h2 ((any_not_of_filter_length _ _).mp hc)),
        if_neg (fun hc => h2 hc.2.2)]
  · rw [if_neg h1, if_neg (fun hc => h1 ⟨hc.1, hc.2.1⟩)]

theorem deleteByPair_eq (fold : Char → Char) (h : Handler) (cfg : Config) (q : DeleteQuery)
    (ok : Bool) :
    deleteByPair fold h cfg q ok =
      if trimSpace q.fromQ ≠ "" ∧ trimSpace q.toQ ≠ "" ∧
          cfg.ModelFallbacks.any (fun fb => equalFold fold fb.From (trimSpace q.fromQ) &&
            equalFold fold fb.To (trimSpace q.toQ)) = true then
        some (commit fold h
          { cfg with ModelFallbacks :=
              cfg.ModelFallbacks.filter (fun fb => !(equalFold fold fb.From (trimSpace q.fromQ) &&
                equalFold fold fb.To (trimSpace q.toQ))) } ok)
      else none := by
  simp only [deleteByPair]
  by_cases h1 : trimSpace q.fromQ ≠ "" ∧ trimSpace q.toQ ≠ ""
  · rw [if_pos h1]
    by_cases h2 : cfg.ModelFallbacks.any (fun fb =>
        equalFold fold fb.From (trimSpace q.fromQ) && equalFold fold fb.To (trimSpace q.toQ)) = true
    · rw [if_pos h2, if_pos ⟨h1.1, h1.2, h2⟩]
    · rw [if_neg h2, if_neg (fun hc => h2 hc.2.2)]
  · rw [if_neg h1, if_neg (fun hc => h1 ⟨hc.1, hc.2.1⟩)]

theorem selectedBy_no_from (fold : Char → Char) (q : DeleteQuery)
    (hf : trimSpace q.fromQ = "") : selectedBy fold q = fun _ => false := by
  funext r
  simp [selectedBy, hf]

theorem selectedBy_from (fold : Char → Char) (q : DeleteQuery)
    (hf : trimSpace q.fromQ ≠ "") (ht : trimSpace q.toQ = "") :
    selectedBy fold q = fun r => equalFold fold r.From (trimSpace q.fromQ) := by
  funext r
  simp [selectedBy, hf, ht]

theorem selectedBy_pair (fold : Char → Char) (q : DeleteQuery)
    (hf : trimSpace q.fromQ ≠ "") (ht : trimSpace q.toQ ≠ "") :
    selectedBy fold q = fun r =>
      equalFold fold r.From (trimSpace q.fromQ) && equalFold fold r.To (trimSpace q.toQ) := by
  funext r
  simp [selectedBy, hf, ht]

/-- On a non-empty rule set, `DeleteModelFallbacks` removes the rule at the
selected position when there is one, else the rules the `from`/`to` selectors
select when there are some, else replies that nothing was found. -/
theorem delete_eq (fold : Char → Char) (h : Handler) (cfg : Config) (q : DeleteQuery) (ok : Bool)
    (hc : h.cfg = some cfg) (hne : cfg.ModelFallbacks ≠ []) :
    DeleteModelFallbacks fold h q ok =
      match selectedIndex cfg.ModelFallbacks.length q with
      | some i => commit fold h { cfg with ModelFallbacks := cfg.ModelFallbacks.eraseIdx i } ok
      | none =>
        if cfg.ModelFallbacks.any (selectedBy fold q) = true then
          commit fold h
            { cfg with ModelFallbacks :=
                cfg.ModelFallbacks.filter (fun r => !selectedBy fold q r) } ok
        else notFound h := by
  have hlen : ¬cfg.ModelFallbacks.length = 0 := fun h0 => hne (List.length_eq_zero.mp h0)
  simp only [DeleteModelFallbacks, hc, if_neg hlen, deleteByIndex_eq]
  cases hsel : selectedIndex cfg.ModelFallbacks.length q with
  | some i => rfl
  | none =>
    simp only [Option.map_none', deleteByFrom_eq, deleteByPair_eq]
    by_cases hf : trimSpace q.fromQ = ""
    · simp [hf, selectedBy_no_from fold q hf, notFound]
    · by_cases ht : trimSpace q.toQ = ""
      · rw [selectedBy_from fold q hf ht]
        by_cases hany : cfg.ModelFallbacks.any
            (fun fb => equalFold fold fb.From (trimSpace q.fromQ)) = true
        · simp [hf, ht, hany]
        · simp [hf, ht, hany, notFound]
      · rw [selectedBy_pair fold q hf ht]
        by_cases hany : cfg.ModelFallbacks.any (fun fb =>
            equalFold fold fb.From (trimSpace q.fromQ) &&
              equalFold fold fb.To (trimSpace q.toQ)) = true
        · simp [hf, ht, hany]
        · simp [hf, ht, hany, notFound]

theorem delete_empty (fold : Char → Char) (h : Handler) (q : DeleteQuery) (ok : Bool)
    (hr : h.rules = []) :
    DeleteModelFallbacks fold h q ok = ⟨h, ⟨200, .status "ok"⟩, []⟩ := by
  unfold DeleteModelFallbacks
  cases hc : h.cfg with
  | none => rfl
  | some cfg =>
    have : cfg.ModelFallbacks = [] := by simpa [Handler.rules, hc] using hr
    simp [this]

/-- Every mutation either replies without touching the handler or its
collaborators, or ends in `commit` of a configuration that does not depend on
the verdict of the persistence collaborator. -/
theorem apply_cases_uniform (fold : Char → Char) (h : Handler) (m : Mutation) :
    (∃ reply, ∀ ok, m.apply fold h ok = ⟨h, reply, []⟩) ∨
      (∃ cfg1, ∀ ok, m.apply fold h ok = commit fold h cfg1 ok) := by
  cases m with
  | replace req =>
    simp only [Mutation.apply, PutModelFallbacks]
    cases req with
    | unreadable => exact Or.inl ⟨_, fun _ => rfl⟩
    | invalid => exact Or.inl ⟨_, fun _ => rfl⟩
    | parsed body =>
      cases hc : h.cfg with
      | none => exact Or.inl ⟨_, fun _ => rfl⟩
      | some cfg => exact Or.inr ⟨_, fun _ => rfl⟩
  | add req =>
    simp only [Mutation.apply, PostModelFallbacks]
    cases req with
    | unreadable => exact Or.inl ⟨_, fun _ => rfl⟩
    | invalid => exact Or.inl ⟨_, fun _ => rfl⟩
    | parsed fb =>
      cases hc : h.cfg with
      | none => exact Or.inl ⟨_, fun _ => rfl⟩
      | some cfg =>
        simp only
        split
        · exact Or.inl ⟨_, fun _ => rfl⟩
        · exact Or.inr ⟨_, fun _ => rfl⟩
  | delete q =>
    simp only [Mutation.apply]
    by_cases hr : h.rules = []
    · exact Or.inl ⟨_, fun ok => delete_empty fold h q ok hr⟩
    · cases hc : h.cfg with
      | none => exact absurd (by simp [Handler.rules, hc]) hr
      | some cfg =>
        have hne : cfg.ModelFallbacks ≠ [] := by simpa [Handler.rules, hc] using hr
        cases hsel : selectedIndex cfg.ModelFallbacks.length q with
        | some i =>
          refine Or.inr
            ⟨{ cfg with ModelFallbacks := cfg.ModelFallbacks.eraseIdx i }, fun ok => ?_⟩
          rw [delete_eq fold h cfg q ok hc hne, hsel]
        | none =>
          by_cases hany : cfg.ModelFallbacks.any (selectedBy fold q) = true
          · refine Or.inr
              ⟨{ cfg with ModelFallbacks :=
                  cfg.ModelFallbacks.filter (fun r => !selectedBy fold q r) }, fun ok => ?_⟩
            rw [delete_eq fold h cfg q ok hc hne, hsel]
            simp only [hany, if_true]
          · refine Or.inl ⟨⟨400, .error "fallback not found"⟩, fun ok => ?_⟩
            rw [delete_eq fold h cfg q ok hc hne, hsel]
            simp only [hany]
            rfl

theorem commit_reply (fold : Char → Char) (h : Handler) (cfg : Config) (ok : Bool) :
    (commit fold h cfg ok).reply =
      if ok then ⟨200, .status "ok"⟩ else ⟨500, .error "failed to save config"⟩ := by
  cases ok <;> rfl

/-! ## Scanning a decimal numeral -/

theorem digitChar_spec (k : Nat) (hk : k < 10) :
    (Nat.digitChar k).isDigit = true ∧ (Nat.digitChar k).toNat - 48 = k := by
  interval_cases k <;> decide

theorem isDigit_toNat (c : Char) (h : c.isDigit = true) : 48 ≤ c.toNat ∧ c.toNat ≤ 57 := by
  simp only [Char.isDigit, Bool.and_eq_true, decide_eq_true_eq] at h
  obtain ⟨h1, h2⟩ := h
  constructor
  · exact h1
  · exact h2

theorem toDigitsCore_spec : ∀ (fuel n : Nat) (ds : List Char), n < fuel →
    ∃ D : List Char, Nat.toDigitsCore 10 fuel n ds = D ++ ds ∧ D ≠ [] ∧
      (∀ c ∈ D, c.isDigit = true) ∧
      ∀ a : Nat, D.foldl (fun acc c => 10 * acc + (c.toNat - 48)) a = a * 10 ^ D.length + n := by
  intro fuel
  induction fuel with
  | zero => intro n ds h; exact absurd h (Nat.not_lt_zero _)
  | succ fuel ih =>
    intro n ds hn
    simp only [Nat.toDigitsCore]
    have hd := digitChar_spec (n % 10) (Nat.mod_lt _ (by decide))
    by_cases h0 : n / 10 = 0
    · rw [if_pos h0]
      refine ⟨[Nat.digitChar (n % 10)], rfl, by simp, ?_, ?_⟩
      · intro c hc
        rw [List.mem_singleton] at hc
        rw [hc]; exact hd.1
      · intro a
        simp only [List.foldl_cons, List.foldl_nil, List.length_singleton, pow_one, hd.2]
        have : n % 10 = n := Nat.mod_eq_of_lt (by omega)
        omega
    · rw [if_neg h0]
      have hlt : n / 10 < fuel := by omega
      obtain ⟨D, hD, hne, hdig, hval⟩ := ih (n / 10) (Nat.digitChar (n % 10) :: ds) hlt
      refine ⟨D ++ [Nat.digitChar (n % 10)], ?_, by simp, ?_, ?_⟩
      · rw [hD]; simp
      · intro c hc
        rw [List.mem_append, List.mem_singleton] at hc
        rcases hc with hc | hc
        · exact hdig c hc
        · rw [hc]; exact hd.1
      · intro a
        rw [List.foldl_append, hval a]
        simp only [List.foldl_cons, List.foldl_nil, List.length_append, List.length_singleton, hd.2]
        rw [pow_succ]
        have := Nat.div_add_mod n 10
        nlinarith [Nat.div_add_mod n 10]

theorem isDigit_plain (c : Char) (h : c.isDigit = true) :
    c ≠ '\n' ∧ isSpace c = false ∧ c ≠ '-' ∧ c ≠ '+' := by
  have hb := isDigit_toNat c h
  refine ⟨?_, ?_, ?_, ?_⟩
  · rintro rfl
    exact absurd hb.1 (by decide)
  · simp only [isSpace, Bool.or_eq_false_iff, beq_eq_false_iff_ne, ne_eq, Bool.and_eq_false_imp,
      decide_eq_true_eq, decide_eq_false_iff_not, not_le]
    omega
  · rintro rfl
    exact absurd hb.1 (by decide)
  · rintro rfl
    exact absurd hb.1 (by decide)

/-- The decimal numeral of a position below `2 ^ 63` scans as that position. -/
theorem sscanfInt_decimal (i : Nat) (hi : i < 2 ^ 63) : sscanfInt (toString i) = some (i : Int) := by
  obtain ⟨D, hD, hne, hdig, hval⟩ := toDigitsCore_spec (i + 1) i [] (Nat.lt_succ_self i)
  rw [List.append_nil] at hD
  have hdata : (toString i).data = D := hD
  cases D with
  | nil => exact absurd rfl hne
  | cons c rest =>
    have hc := isDigit_plain c (hdig c (List.mem_cons_self _ _))
    have hskip : skipSpace (c :: rest) = some (c :: rest) := by
      simp [skipSpace, hc.1, hc.2.1]
    have htake : (c :: rest).takeWhile Char.isDigit = c :: rest :=
      List.takeWhile_eq_self_iff.mpr hdig
    have hv := hval 0
    simp only [zero_mul, zero_add] at hv
    unfold sscanfInt
    rw [hdata, hskip]
    simp only [List.head?_cons, Option.some.injEq, hc.2.2.1, hc.2.2.2, or_self, if_false, htake,
      decide_False, hv]
    have hr : -(2 : Int) ^ 63 ≤ (i : Int) ∧ (i : Int) < (2 : Int) ^ 63 := by
      constructor
      · have : (0 : Int) ≤ (i : Int) := Int.ofNat_nonneg i
        omega
      · exact_mod_cast hi
    rw [if_neg hne, if_pos hr]

/-! ## Foldings that keep spaces apart -/

theorem asciiFold_isSpace (c : Char) : isSpace (asciiFold c) = isSpace c := by
  unfold asciiFold
  split
  · rename_i h
    obtain ⟨lo, hi⟩ := h
    interval_cases hn : c.toNat <;> simp [isSpace, hn]
  · rfl

theorem asciiFold_spaceStable : SpaceStable asciiFold := by
  intro c d hcd
  rw [← asciiFold_isSpace c, ← asciiFold_isSpace d, hcd]

/-- Under a folding that keeps spaces apart, a string that folds to a string
without outer spaces has no outer spaces itself. -/
theorem outerSpaceFree_of_equalFold (fold : Char → Char) (hfold : SpaceStable fold)
    {s t : String} (hst : equalFold fold s t = true) (hs : outerSpaceFree s = true) :
    outerSpaceFree t = true := by
  rw [equalFold_iff] at hst
  simp only [outerSpaceFree, Bool.and_eq_true] at hs ⊢
  have hhead := congrArg List.head? hst
  have hlast := congrArg List.getLast? hst
  rw [List.head?_map, List.head?_map] at hhead
  rw [List.getLast?_map, List.getLast?_map] at hlast
  constructor
  · cases ht : t.data.head? with
    | none => rfl
    | some d =>
      rw [ht] at hhead
      cases hsd : s.data.head? with
      | none => rw [hsd] at hhead; cases hhead
      | some c =>
        rw [hsd] at hhead
        have hfc : fold c = fold d := Option.some.inj hhead
        have hc := hs.1
        rw [hsd] at hc
        simp only [Option.all_some, Bool.not_eq_true'] at hc ⊢
        rw [← hfold c d hfc]
        exact hc
  · cases ht : t.data.getLast? with
    | none => rfl
    | some d =>
      rw [ht] at hlast
      cases hsd : s.data.getLast? with
      | none => rw [hsd] at hlast; cases hlast
      | some c =>
        rw [hsd] at hlast
        have hfc : fold c = fold d := Option.some.inj hlast
        have hc := hs.2
        rw [hsd] at hc
        simp only [Option.all_some, Bool.not_eq_true'] at hc ⊢
        rw [← hfold c d hfc]
        exact hc

/-! ## Known model names: the map -/

theorem any_key_iff (m : List (String × Bool)) (k : String) :
    m.any (fun e => e.1 == k) = true ↔ k ∈ mapKeys m := by
  simp only [List.any_eq_true, beq_iff_eq, mapKeys, List.mem_map]

theorem mapKeys_mapSet (m : List (String × Bool)) (k : String) (v : Bool) :
    mapKeys (mapSet m k v) = if k ∈ mapKeys m then mapKeys m else mapKeys m ++ [k] := by
  unfold mapSet
  by_cases hk : k ∈ mapKeys m
  · rw [if_pos ((any_key_iff m k).mpr hk), if_pos hk]
    simp only [mapKeys, List.map_map]
    apply List.map_congr_left
    intro e _
    simp only [Function.comp]
    split <;> rfl
  · rw [if_neg (fun hc => hk ((any_key_iff m k).mp hc)), if_neg hk]
    simp [mapKeys]

theorem mem_mapKeys_mapSet (m : List (String × Bool)) (k : String) (v : Bool) (x : String) :
    x ∈ mapKeys (mapSet m k v) ↔ x ∈ mapKeys m ∨ x = k := by
  rw [mapKeys_mapSet]
  by_cases hk : k ∈ mapKeys m
  · rw [if_pos hk]
    constructor
    · exact Or.inl
    · rintro (hx | rfl)
      · exact hx
      · exact hk
  · rw [if_neg hk]
    simp

theorem nodup_mapSet (m : List (String × Bool)) (k : String) (v : Bool)
    (h : (mapKeys m).Nodup) : (mapKeys (mapSet m k v)).Nodup := by
  rw [mapKeys_mapSet]
  by_cases hk : k ∈ mapKeys m
  · rw [if_pos hk]; exact h
  · rw [if_neg hk]
    rw [List.nodup_append]
    refine ⟨h, List.nodup_singleton k, ?_⟩
    intro a ha hb
    rw [List.mem_singleton] at hb
    exact hk (hb ▸ ha)

/-- The keys after a loop of map updates: those before it and those some
iteration stores. -/
theorem mem_mapKeys_foldl {α : Type} (f : List (String × Bool) → α → List (String × Bool))
    (P : α → String → Prop)
    (hf : ∀ acc a x, x ∈ mapKeys (f acc a) ↔ x ∈ mapKeys acc ∨ P a x) :
    ∀ (l : List α) (acc : List (String × Bool)) (x : String),
      x ∈ mapKeys (l.foldl f acc) ↔ x ∈ mapKeys acc ∨ ∃ a ∈ l, P a x := by
  intro l
  induction l with
  | nil => intro acc x; simp
  | cons a rest ih =>
    intro acc x
    rw [List.foldl_cons, ih, hf]
    simp only [List.mem_cons, exists_eq_or_imp]
    tauto

theorem nodup_mapKeys_foldl {α : Type} (f : List (String × Bool) → α → List (String × Bool))
    (hf : ∀ acc a, (mapKeys acc).Nodup → (mapKeys (f acc a)).Nodup) :
    ∀ (l : List α) (acc : List (String × Bool)),
      (mapKeys acc).Nodup → (mapKeys (l.foldl f acc)).Nodup := by
  intro l
  induction l with
  | nil => intro acc h; exact h
  | cons a rest ih =>
    intro acc h
    rw [List.foldl_cons]
    exact ih _ (hf acc a h)

theorem mem_setModels (models : List (String × Bool)) (ms : List ProviderModel) (x : String) :
    x ∈ mapKeys (setModels models ms) ↔ x ∈ mapKeys models ∨ ∃ m ∈ ms, storesModel m x := by
  unfold setModels
  apply mem_mapKeys_foldl
  intro acc m y
  by_cases ha : m.Alias = ""
  · simp [ha, mem_mapKeys_mapSet, storesModel]
  · simp only [ne_eq, ha, not_false_eq_true, if_true, mem_mapKeys_mapSet, storesModel, true_and]
    tauto

theorem nodup_setModels (models : List (String × Bool)) (ms : List ProviderModel)
    (h : (mapKeys models).Nodup) : (mapKeys (setModels models ms)).Nodup := by
  unfold setModels
  apply nodup_mapKeys_foldl _ _ ms models h
  intro acc m hacc
  simp only
  split
  · exact nodup_mapSet _ _ _ (nodup_mapSet _ _ _ hacc)
  · exact nodup_mapSet _ _ _ hacc

theorem mem_setGeminiKeys (models : List (String × Bool)) (keys : List GeminiKey) (x : String) :
    x ∈ mapKeys (setGeminiKeys models keys) ↔
      x ∈ mapKeys models ∨ ∃ k ∈ keys, x = k.APIKey ∨ ∃ m ∈ k.Models, storesModel m x := by
  unfold setGeminiKeys
  apply mem_mapKeys_foldl
  intro acc k y
  rw [mem_setModels, mem_mapKeys_mapSet]
  tauto

theorem nodup_setGeminiKeys (models : List (String × Bool)) (keys : List GeminiKey)
    (h : (mapKeys models).Nodup) : (mapKeys (setGeminiKeys models keys)).Nodup := by
  unfold setGeminiKeys
  apply nodup_mapKeys_foldl _ _ keys models h
  intro acc k hacc
  exact nodup_setModels _ _ (nodup_mapSet _ _ _ hacc)

theorem mem_setProviderKeys (models : List (String × Bool)) (keys : List ProviderKey)
    (x : String) :
    x ∈ mapKeys (setProviderKeys models keys) ↔
      x ∈ mapKeys models ∨ ∃ k ∈ keys, ∃ m ∈ k.Models, storesModel m x := by
  unfold setProviderKeys
  apply mem_mapKeys_foldl
  intro acc k y
  rw [mem_setModels]

theorem nodup_setProviderKeys (models : List (String × Bool)) (keys : List ProviderKey)
    (h : (mapKeys models).Nodup) : (mapKeys (setProviderKeys models keys)).Nodup := by
  unfold setProviderKeys
  apply nodup_mapKeys_foldl _ _ keys models h
  intro acc k hacc
  exact nodup_setModels _ _ hacc

theorem mem_setMappings (models : List (String × Bool)) (ms : List AmpModelMapping)
    (x : String) :
    x ∈ mapKeys (setMappings models ms) ↔
      x ∈ mapKeys models ∨ ∃ mp ∈ ms, x = mp.From ∨ x = mp.To := by
  unfold setMappings
  apply mem_mapKeys_foldl
  intro acc mp y
  rw [mem_mapKeys_mapSet, mem_mapKeys_mapSet]
  tauto

theorem nodup_setMappings (models : List (String × Bool)) (ms : List AmpModelMapping)
    (h : (mapKeys models).Nodup) : (mapKeys (setMappings models ms)).Nodup := by
  unfold setMappings
  apply nodup_mapKeys_foldl _ _ ms models h
  intro acc mp hacc
  exact nodup_mapSet _ _ _ (nodup_mapSet _ _ _ hacc)

theorem mem_setFallbacks (models : List (String × Bool)) (fbs : List ModelFallback)
    (x : String) :
    x ∈ mapKeys (setFallbacks models fbs) ↔
      x ∈ mapKeys models ∨ ∃ fb ∈ fbs, x = fb.From ∨ x = fb.To := by
  unfold setFallbacks
  apply mem_mapKeys_foldl
  intro acc fb y
  rw [mem_mapKeys_mapSet, mem_mapKeys_mapSet]
  tauto

theorem nodup_setFallbacks (models : List (String × Bool)) (fbs : List ModelFallback)
    (h : (mapKeys models).Nodup) : (mapKeys (setFallbacks models fbs)).Nodup := by
  unfold setFallbacks
  apply nodup_mapKeys_foldl _ _ fbs models h
  intro acc fb hacc
  exact nodup_mapSet _ _ _ (nodup_mapSet _ _ _ hacc)

theorem mem_setCommon (models : List (String × Bool)) (x : String) :
    x ∈ mapKeys (setCommon models) ↔ x ∈ mapKeys models ∨ x ∈ commonModels := by
  unfold setCommon
  rw [mem_mapKeys_foldl (fun acc m => mapSet acc m true) (fun m y => y = m)
    (fun acc m y => mem_mapKeys_mapSet acc m true y)]
  simp

theorem nodup_setCommon (models : List (String × Bool)) (h : (mapKeys models).Nodup) :
    (mapKeys (setCommon models)).Nodup := by
  unfold setCommon
  apply nodup_mapKeys_foldl _ _ commonModels models h
  intro acc m hacc
  exact nodup_mapSet _ _ _ hacc

theorem nodup_modelMap (cfg : Config) : (mapKeys (modelMap cfg)).Nodup := by
  unfold modelMap
  exact nodup_setCommon _ (nodup_setFallbacks _ _ (nodup_setMappings _ _
    (nodup_setProviderKeys _ _ (nodup_setProviderKeys _ _ (nodup_setProviderKeys _ _
      (nodup_setProviderKeys _ _ (nodup_setGeminiKeys _ _ List.nodup_nil)))))))

/-- The keys of the final map: the documented model names and the API keys of
the Gemini entries. -/
theorem mem_modelMap (cfg : Config) (x : String) :
    x ∈ mapKeys (modelMap cfg) ↔ isModelName cfg x ∨ ∃ k ∈ cfg.GeminiKey, x = k.APIKey := by
  have hnil : ∀ y : String, y ∈ mapKeys [] ↔ False := fun y => by simp [mapKeys]
  unfold modelMap
  simp only []
  rw [mem_setCommon, mem_setFallbacks, mem_setMappings, mem_setProviderKeys,
    mem_setProviderKeys, mem_setProviderKeys, mem_setProviderKeys, mem_setGeminiKeys, hnil,
    false_or]
  simp only [isModelName, List.mem_append, List.mem_flatMap]
  constructor
  · intro h
    rcases h with h | hcm
    · rcases h with h | hfb
      · rcases h with h | hmp
        · rcases h with h | ⟨k, hk, m, hm, hs⟩
          · rcases h with h | ⟨k, hk, m, hm, hs⟩
            · rcases h with h | ⟨k, hk, m, hm, hs⟩
              · rcases h with h | ⟨k, hk, m, hm, hs⟩
                · rcases h with ⟨k, hk, hx | ⟨m, hm, hs⟩⟩
                  · exact Or.inr ⟨k, hk, hx⟩
                  · exact Or.inl (Or.inl
                      ⟨m, Or.inl (Or.inl (Or.inl (Or.inl ⟨k, hk, hm⟩))), hs⟩)
                · exact Or.inl (Or.inl
                    ⟨m, Or.inl (Or.inl (Or.inl (Or.inr ⟨k, hk, hm⟩))), hs⟩)
              · exact Or.inl (Or.inl ⟨m, Or.inl (Or.inl (Or.inr ⟨k, hk, hm⟩)), hs⟩)
            · exact Or.inl (Or.inl ⟨m, Or.inl (Or.inr ⟨k, hk, hm⟩), hs⟩)
          · exact Or.inl (Or.inl ⟨m, Or.inr ⟨k, hk, hm⟩, hs⟩)
        · exact Or.inl (Or.inr (Or.inl hmp))
      · exact Or.inl (Or.inr (Or.inr (Or.inl hfb)))
    · exact Or.inl (Or.inr (Or.inr (Or.inr hcm)))
  · intro h
    rcases h with h | ⟨k, hk, hx⟩
    · rcases h with ⟨m, hsrc, hs⟩ | hmp | hfb | hcm
      · rcases hsrc with hsrc | ⟨k, hk, hm⟩
        · rcases hsrc with hsrc | ⟨k, hk, hm⟩
          · rcases hsrc with hsrc | ⟨k, hk, hm⟩
            · rcases hsrc with ⟨k, hk, hm⟩ | ⟨k, hk, hm⟩
              · exact Or.inl (Or.inl (Or.inl (Or.inl (Or.inl (Or.inl (Or.inl
                  ⟨k, hk, Or.inr ⟨m, hm, hs⟩⟩))))))
              · exact Or.inl (Or.inl (Or.inl (Or.inl (Or.inl (Or.inl (Or.inr
                  ⟨k, hk, m, hm, hs⟩))))))
            · exact Or.inl (Or.inl (Or.inl (Or.inl (Or.inl (Or.inr ⟨k, hk, m, hm, hs⟩)))))
          · exact Or.inl (Or.inl (Or.inl (Or.inl (Or.inr ⟨k, hk, m, hm, hs⟩))))
        · exact Or.inl (Or.inl (Or.inl (Or.inr ⟨k, hk, m, hm, hs⟩)))
      · exact Or.inl (Or.inl (Or.inr hmp))
      · exact Or.inl (Or.inr hfb)
      · exact Or.inr hcm
    · exact Or.inl (Or.inl (Or.inl (Or.inl (Or.inl (Or.inl (Or.inl
        ⟨k, hk, Or.inl hx⟩))))))

/-! ## Known model names: the sort -/

theorem strGt_iff (a b : String) : strGt a b = true ↔ b.data < a.data := by
  simp [strGt]

theorem sortInner_cons (x y : String) (ys : List String) :
    sortInner x (y :: ys) =
      if strGt x y = true then ((sortInner y ys).1, x :: (sortInner y ys).2)
      else ((sortInner x ys).1, y :: (sortInner x ys).2) := rfl

theorem sortInner_perm (l : List String) :
    ∀ x : String, ((sortInner x l).1 :: (sortInner x l).2).Perm (x :: l) := by
  induction l with
  | nil => intro x; exact List.Perm.refl _
  | cons y ys ih =>
    intro x
    rw [sortInner_cons]
    by_cases hgt : strGt x y = true
    · rw [if_pos hgt]
      exact (List.Perm.swap _ _ _).trans ((ih y).cons x)
    · rw [if_neg hgt]
      exact ((List.Perm.swap _ _ _).trans ((ih x).cons y)).trans (List.Perm.swap _ _ _)

theorem sortInner_length (l : List String) :
    ∀ x : String, (sortInner x l).2.length = l.length := by
  induction l with
  | nil => intro x; rfl
  | cons y ys ih =>
    intro x
    rw [sortInner_cons]
    by_cases hgt : strGt x y = true
    · rw [if_pos hgt]; simp [ih y]
    · rw [if_neg hgt]; simp [ih x]

/-- The inner loop leaves at position `i` an entry that is not above the entry
it started with nor above any entry after it. -/
theorem sortInner_le (l : List String) :
    ∀ x : String, (sortInner x l).1.data ≤ x.data ∧
      ∀ z ∈ (sortInner x l).2, (sortInner x l).1.data ≤ z.data := by
  induction l with
  | nil => intro x; exact ⟨le_refl _, fun z hz => by cases hz⟩
  | cons y ys ih =>
    intro x
    rw [sortInner_cons]
    by_cases hgt : strGt x y = true
    · rw [if_pos hgt]
      have hyx : y.data < x.data := (strGt_iff x y).mp hgt
      obtain ⟨h1, h2⟩ := ih y
      refine ⟨le_trans h1 (le_of_lt hyx), ?_⟩
      intro z hz
      rcases List.mem_cons.mp hz with rfl | hz
      · exact le_trans h1 (le_of_lt hyx)
      · exact h2 z hz
    · rw [if_neg hgt]
      have hxy : x.data ≤ y.data := not_lt.mp (fun hc => hgt ((strGt_iff x y).mpr hc))
      obtain ⟨h1, h2⟩ := ih x
      refine ⟨h1, ?_⟩
      intro z hz
      rcases List.mem_cons.mp hz with rfl | hz
      · exact le_trans h1 hxy
      · exact h2 z hz

theorem sortOuter_perm : ∀ (n : Nat) (l : List String), (sortOuter n l).Perm l := by
  intro n
  induction n with
  | zero => intro l; exact List.Perm.refl _
  | succ n ih =>
    intro l
    cases l with
    | nil => exact List.Perm.refl _
    | cons x xs =>
      simp only [sortOuter]
      exact ((ih _).cons _).trans (sortInner_perm xs x)

theorem sortOuter_sorted : ∀ (n : Nat) (l : List String), l.length ≤ n →
    (sortOuter n l).Pairwise (fun a b => a.data ≤ b.data) := by
  intro n
  induction n with
  | zero =>
    intro l hl
    have : l = [] := List.length_eq_zero.mp (Nat.le_zero.mp hl)
    rw [this]
    exact List.Pairwise.nil
  | succ n ih =>
    intro l hl
    cases l with
    | nil => exact List.Pairwise.nil
    | cons x xs =>
      simp only [sortOuter]
      rw [List.pairwise_cons]
      refine ⟨?_, ih _ ?_⟩
      · intro z hz
        exact (sortInner_le xs x).2 z ((sortOuter_perm n _).subset hz)
      · rw [sortInner_length]
        exact Nat.le_of_succ_le_succ hl

theorem exchangeSort_perm (l : List String) : (exchangeSort l).Perm l :=
  sortOuter_perm _ l

/-- On entries that are pairwise different the sort yields a strictly
ascending list. -/
theorem exchangeSort_strict (l : List String) (hn : l.Nodup) :
    (exchangeSort l).Pairwise (fun a b => a < b) := by
  have hle : (exchangeSort l).Pairwise (fun a b => a.data ≤ b.data) :=
    sortOuter_sorted _ l (le_refl _)
  have hnd : (exchangeSort l).Pairwise (fun a b => a ≠ b) :=
    (exchangeSort_perm l).nodup_iff.mpr hn
  refine (hle.and hnd).imp ?_
  rintro a b ⟨hab, hne⟩
  rw [String.lt_iff_toList_lt]
  exact lt_of_le_of_ne hab (fun hd => hne (String.ext hd))

/-- The sorted list does not depend on the order in which the map is ranged. -/
theorem exchangeSort_order_irrelevant (l1 l2 : List String) (hp : l1.Perm l2)
    (hn : l2.Nodup) : exchangeSort l1 = exchangeSort l2 := by
  have hn1 : l1.Nodup := hp.nodup_iff.mpr hn
  have hperm : (exchangeSort l1).Perm (exchangeSort l2) :=
    ((exchangeSort_perm l1).trans hp).trans (exchangeSort_perm l2).symm
  exact List.eq_of_perm_of_sorted hperm (exchangeSort_strict l1 hn1) (exchangeSort_strict l2 hn)

theorem mem_availableModels (cfg : Config) (x : String) :
    x ∈ availableModels cfg ↔ isModelName cfg x ∨ ∃ k ∈ cfg.GeminiKey, x = k.APIKey := by
  unfold availableModels
  rw [(exchangeSort_perm _).mem_iff, mem_modelMap]

/-! ## The tests of the repository, replayed on the model -/

/-- The cases of `TestSanitizeModelFallbacks`. -/
theorem test_sanitize_cases :
    sanitizeRules asciiFold [⟨"", "b"⟩, ⟨"a", "b"⟩] = [⟨"a", "b"⟩] ∧
    sanitizeRules asciiFold [⟨"a", ""⟩, ⟨"a", "b"⟩] = [⟨"a", "b"⟩] ∧
    sanitizeRules asciiFold [⟨"a", "a"⟩, ⟨"b", "c"⟩] = [⟨"b", "c"⟩] ∧
    sanitizeRules asciiFold [⟨"Model-A", "model-a"⟩] = [] ∧
    sanitizeRules asciiFold [⟨"a", "b"⟩, ⟨"a", "b"⟩, ⟨"a", "b"⟩] = [⟨"a", "b"⟩] ∧
    sanitizeRules asciiFold [⟨"a", "b"⟩, ⟨"A", "B"⟩] = [⟨"a", "b"⟩] ∧
    sanitizeRules asciiFold [⟨"a", "b"⟩, ⟨"a", "c"⟩] = [⟨"a", "b"⟩, ⟨"a", "c"⟩] ∧
    sanitizeRules asciiFold [⟨"  model-a  ", "  model-b  "⟩] = [⟨"model-a", "model-b"⟩] := by
  decide

/-- The cases of `TestFallbackLookup`, on the loaded configuration. -/
theorem test_lookup_cases :
    lookupFallback asciiFold
      (some (LoadConfig asciiFold { ModelFallbacks := [⟨"gemini-2.5-pro", "gemini-2.5-flash"⟩] }))
      "gemini-2.5-pro" = "gemini-2.5-flash" ∧
    lookupFallback asciiFold
      (some (LoadConfig asciiFold { ModelFallbacks := [⟨"model-a", "model-b"⟩] })) "model-c" = "" ∧
    lookupFallback asciiFold
      (some (LoadConfig asciiFold { ModelFallbacks := [⟨"Model-A", "Model-B"⟩] })) "model-a"
        = "Model-B" ∧
    lookupFallback asciiFold
      (some (LoadConfig asciiFold { ModelFallbacks := [⟨"model-a", "model-b"⟩] })) "MODEL-A"
        = "model-b" ∧
    lookupFallback asciiFold
      (some (LoadConfig asciiFold { ModelFallbacks := [⟨"a", "b"⟩] })) "" = "" ∧
    lookupFallback asciiFold
      (some (LoadConfig asciiFold { ModelFallbacks := [⟨"a", "b"⟩, ⟨"b", "c"⟩, ⟨"c", "d"⟩] })) "a"
        = "b" := by
  decide

/-- The cases of `TestModelFallbackDepth`. -/
theorem test_depth_cases :
    (LoadConfig asciiFold {}).ModelFallbackDepth = some 3 ∧
    (LoadConfig asciiFold { ModelFallbackDepth := some 5 }).ModelFallbackDepth = some 5 ∧
    (LoadConfig asciiFold { ModelFallbackDepth := some 0 }).ModelFallbackDepth = some 0 ∧
    (LoadConfig asciiFold { ModelFallbackDepth := some (-1) }).ModelFallbackDepth = some 3 := by
  decide

/-- The self-reference case of `TestModelFallbackCycleDetection`. -/
theorem test_self_reference_case :
    (LoadConfig asciiFold { ModelFallbacks := [⟨"a", "a"⟩] }).ModelFallbacks = [] := by
  decide

/-! ## Claims -/

/-- C1: `lookupFallback` returns the `To` of the first rule, in list order,
whose `From` equals the model under case folding; it returns the empty string
when the model is empty or when no rule's `From` matches it. -/
theorem lookupFallback_first_match (fold : Char → Char) (cfg : Config) (m : String) :
    (m = "" → lookupFallback fold (some cfg) m = "") ∧
    ((∀ r ∈ cfg.ModelFallbacks, equalFold fold r.From m = false) →
      lookupFallback fold (some cfg) m = "") ∧
    (∀ pre r post, m ≠ "" → cfg.ModelFallbacks = pre ++ r :: post →
      (∀ p ∈ pre, equalFold fold p.From m = false) → equalFold fold r.From m = true →
      lookupFallback fold (some cfg) m = r.To) := by
  refine ⟨?_, ?_, ?_⟩
  · intro hm
    simp [lookupFallback, lookup, hm]
  · intro hno
    simp only [lookupFallback, lookup]
    split
    · rfl
    · exact lookupLoop_no_match fold m _ hno
  · intro pre r post hm hsplit hpre hr
    simp only [lookupFallback, lookup, if_neg hm, hsplit]
    exact lookupLoop_first_match fold m pre r post hpre hr

/-- C2: every rule of a sanitized list has a non-empty `From` and `To` without
leading or trailing whitespace, its `From` differs from its `To` under case
folding, and no two rules of the list are equal under case folding of both
fields. -/
theorem sanitize_invariants (fold : Char → Char) (R : List ModelFallback) :
    (∀ r ∈ sanitizeRules fold R,
      r.From ≠ "" ∧ r.To ≠ "" ∧ outerSpaceFree r.From = true ∧ outerSpaceFree r.To = true ∧
        equalFold fold r.From r.To = false) ∧
    (sanitizeRules fold R).Pairwise (fun a b => sameRule fold a b = false) :=
  wellFormed_sanitizeRules fold R

/-- C3: sanitization is idempotent, on the rule list and on the whole
configuration (rules and depth). -/
theorem sanitize_idempotent (fold : Char → Char) (R : List ModelFallback) (cfg : Config) :
    sanitizeRules fold (sanitizeRules fold R) = sanitizeRules fold R ∧
    SanitizeModelFallbacks fold (SanitizeModelFallbacks fold cfg) =
      SanitizeModelFallbacks fold cfg := by
  refine ⟨sanitizeRules_of_wellFormed fold (wellFormed_sanitizeRules fold R), ?_⟩
  simp only [SanitizeModelFallbacks]
  rw [sanitizeRules_of_wellFormed fold (wellFormed_sanitizeRules fold cfg.ModelFallbacks),
    sanitizeDepth_idem]

/-- C4: the sanitized list is the list obtained by trimming both fields of every
rule, discarding the rules with an empty field or with `From` equal to `To`
under case folding, and keeping of the rest only the first rule of each
case-insensitive pair, in the original order and spelling; `[{a,b},{A,B}]`
gives `[{a,b}]` and `[{a,b},{a,c}]` is kept whole. -/
theorem sanitize_refines_spec (fold : Char → Char) (R : List ModelFallback) :
    sanitizeRules fold R = keepFirst fold ((R.map trimRule).filter (validRule fold)) ∧
    sanitizeRules asciiFold [⟨"a", "b"⟩, ⟨"A", "B"⟩] = [⟨"a", "b"⟩] ∧
    sanitizeRules asciiFold [⟨"a", "b"⟩, ⟨"a", "c"⟩] = [⟨"a", "b"⟩, ⟨"a", "c"⟩] :=
  ⟨sanitizeRules_eq_spec fold R, by decide, by decide⟩

/-- C6: the Sanitizer does not look at multi-hop structure: a rule list that is
already trimmed, non-blank, free of self-references and pairwise distinct under
case folding is returned as it is, cycles included. -/
theorem sanitize_fixes_wellFormed (fold : Char → Char) (R : List ModelFallback)
    (hR : WellFormed fold R) : sanitizeRules fold R = R :=
  sanitizeRules_of_wellFormed fold hR

/-- C6, at the three-rule cycle: `sanitize([a->b, b->c, c->a])` is the list
itself. -/
theorem sanitize_fixes_wellFormed_witness :
    WellFormed asciiFold [⟨"a", "b"⟩, ⟨"b", "c"⟩, ⟨"c", "a"⟩] ∧
    sanitizeRules asciiFold [⟨"a", "b"⟩, ⟨"b", "c"⟩, ⟨"c", "a"⟩]
      = [⟨"a", "b"⟩, ⟨"b", "c"⟩, ⟨"c", "a"⟩] :=
  ⟨by decide, sanitize_fixes_wellFormed asciiFold _ (by decide)⟩

/-- C7: a chain has at most `d` elements and is empty at depth 0; on
`[{a,b},{b,c},{c,d}]` at depth 2 the chain of `a` is `[b, c]`. -/
theorem resolveChain_depth_bound (fold : Char → Char) (R : List ModelFallback) (d : Nat)
    (m : String) :
    (resolveChain fold R d m).length ≤ d ∧
    resolveChain fold R 0 m = [] ∧
    resolveChain asciiFold [⟨"a", "b"⟩, ⟨"b", "c"⟩, ⟨"c", "d"⟩] 2 "a" = ["b", "c"] :=
  ⟨resolveLoop_length fold R d [m] m, rfl, by decide⟩

/-- C8: the chain is computed by recursion on the depth, hence always returns;
no two of its models are equal under case folding (so none occurs twice), none
equals the starting model under case folding; on `[{a,b},{b,a}]` at any depth of
at least 2 the chain of `a` is `[b]`. -/
theorem resolveChain_cycle_safe (fold : Char → Char) (R : List ModelFallback) (d : Nat)
    (m : String) :
    (resolveChain fold R d m).Pairwise (fun a b => equalFold fold a b = false) ∧
    (resolveChain fold R d m).Nodup ∧
    (∀ x ∈ resolveChain fold R d m, equalFold fold m x = false) ∧
    (∀ k : Nat, resolveChain asciiFold [⟨"a", "b"⟩, ⟨"b", "a"⟩] (k + 2) "a" = ["b"]) := by
  have hfresh := resolveLoop_fresh fold R d [m] m
  refine ⟨hfresh.2, ?_, ?_, ?_⟩
  · refine hfresh.2.imp ?_
    intro a b hab heq
    rw [heq, equalFold_refl] at hab
    cases hab
  · intro x hx
    exact hfresh.1 x hx m (List.mem_singleton_self _)
  · intro k
    have h1 : lookup asciiFold [⟨"a", "b"⟩, ⟨"b", "a"⟩] "a" = "b" := by decide
    have h2 : lookup asciiFold [⟨"a", "b"⟩, ⟨"b", "a"⟩] "b" = "a" := by decide
    rw [resolveChain, resolveLoop_succ, h1, resolveLoop_succ, h2]
    rw [if_neg (by decide), if_neg (by decide), if_neg (by decide), if_pos (by decide)]

/-- C9: after loading or sanitizing, the depth is 3 when it was unset, 3 when it
was negative and the configured value when that is not negative (0 stays 0, 5
stays 5); the get-configuration handler reports 3 when no depth is stored, and
the stored depth otherwise. -/
theorem depth_default_and_validation (fold : Char → Char) (cfg : Config) (am : Bool) :
    LoadConfig fold cfg = SanitizeModelFallbacks fold cfg ∧
    (cfg.ModelFallbackDepth = none → (LoadConfig fold cfg).ModelFallbackDepth = some 3) ∧
    (∀ n : Int, cfg.ModelFallbackDepth = some n → n < 0 →
      (LoadConfig fold cfg).ModelFallbackDepth = some 3) ∧
    (∀ n : Int, cfg.ModelFallbackDepth = some n → 0 ≤ n →
      (LoadConfig fold cfg).ModelFallbackDepth = some n) ∧
    (LoadConfig fold { cfg with ModelFallbackDepth := some 0 }).ModelFallbackDepth = some 0 ∧
    (LoadConfig fold { cfg with ModelFallbackDepth := some 5 }).ModelFallbackDepth = some 5 ∧
    (cfg.ModelFallbackDepth = none →
      GetModelFallbacks (some ⟨some cfg, am⟩) = ⟨200, .fallbacks cfg.ModelFallbacks 3⟩) ∧
    (∀ n : Int, cfg.ModelFallbackDepth = some n →
      GetModelFallbacks (some ⟨some cfg, am⟩) = ⟨200, .fallbacks cfg.ModelFallbacks n⟩) ∧
    GetModelFallbacks (some ⟨none, am⟩) = ⟨200, .fallbacks [] 3⟩ ∧
    GetModelFallbacks none = ⟨200, .fallbacks [] 3⟩ := by
  refine ⟨rfl, ?_, ?_, ?_, rfl, rfl, ?_, ?_, rfl, rfl⟩
  · intro h
    simp [LoadConfig, SanitizeModelFallbacks, sanitizeDepth, h]
  · intro n h hn
    simp [LoadConfig, SanitizeModelFallbacks, sanitizeDepth, h, hn]
  · intro n h hn
    simp [LoadConfig, SanitizeModelFallbacks, sanitizeDepth, h, not_lt.mpr hn]
  · intro h
    simp [GetModelFallbacks, h]
  · intro n h
    simp [GetModelFallbacks, h]

/-- C10: well-formedness is preserved by every mutation: when the stored rule set
satisfies the invariants of the Sanitizer, so does the rule set stored after any
replace, add or delete, whatever its arguments and whatever the persistence
collaborator answers; and every configuration handed to the persistence
collaborator or to the notification sink carries a well-formed rule set. -/
theorem mutation_preserves_wellFormed (fold : Char → Char) (h : Handler) (persistOk : Bool)
    (m : Mutation) (hwf : WellFormed fold h.rules) :
    WellFormed fold (m.apply fold h persistOk).handler.rules ∧
    ∀ e ∈ (m.apply fold h persistOk).events, WellFormed fold e.config.ModelFallbacks := by
  rcases apply_cases fold h persistOk m with ⟨reply, hres⟩ | ⟨cfg1, hres⟩
  · rw [hres]
    exact ⟨hwf, fun e he => by cases he⟩
  · rw [hres]
    refine ⟨?_, ?_⟩
    · rw [commit_rules]
      exact wellFormed_sanitizeRules fold _
    · intro e he
      rw [commit_event_rules fold h cfg1 persistOk e he]
      exact wellFormed_sanitizeRules fold _

/-- C10, at the addition of an untrimmed rule to `[a->b]` with the persistence
collaborator failing. -/
theorem mutation_preserves_wellFormed_witness :
    WellFormed asciiFold (Handler.rules ⟨some { ModelFallbacks := [⟨"a", "b"⟩] }, true⟩) ∧
    WellFormed asciiFold
      (Mutation.apply asciiFold ⟨some { ModelFallbacks := [⟨"a", "b"⟩] }, true⟩ false
        (.add (.parsed ⟨" B ", "c"⟩))).handler.rules :=
  ⟨by decide,
    (mutation_preserves_wellFormed asciiFold ⟨some { ModelFallbacks := [⟨"a", "b"⟩] }, true⟩ false
      (.add (.parsed ⟨" B ", "c"⟩)) (by decide)).1⟩

/-- C11 (as stated, refuted): a replace of `[a->b]`, depth 2, by `[x->y]`,
depth 5, whose persistence fails replies 500 and leaves `[x->y]`, depth 5, in
memory. -/
theorem persist_failure_keeps_mutation :
    (PutModelFallbacks asciiFold
      ⟨some { ModelFallbacks := [⟨"a", "b"⟩], ModelFallbackDepth := some 2 }, true⟩
      (.parsed ⟨[⟨"x", "y"⟩], some 5⟩) false).reply.code = 500 ∧
    (PutModelFallbacks asciiFold
      ⟨some { ModelFallbacks := [⟨"a", "b"⟩], ModelFallbackDepth := some 2 }, true⟩
      (.parsed ⟨[⟨"x", "y"⟩], some 5⟩) false).handler
      = ⟨some { ModelFallbacks := [⟨"x", "y"⟩], ModelFallbackDepth := some 5 }, true⟩ ∧
    (PutModelFallbacks asciiFold
      ⟨some { ModelFallbacks := [⟨"a", "b"⟩], ModelFallbackDepth := some 2 }, true⟩
      (.parsed ⟨[⟨"x", "y"⟩], some 5⟩) false).handler
      ≠ ⟨some { ModelFallbacks := [⟨"a", "b"⟩], ModelFallbackDepth := some 2 }, true⟩ := by
  decide

/-- C11 (amended): when the persistence collaborator fails, no reload
notification is sent and the caller gets the failure reply, while the handler
holds what it holds when persistence succeeds: the mutation is applied in
memory before persistence is attempted and is not rolled back. -/
theorem persist_failure_effects (fold : Char → Char) (h : Handler) (m : Mutation) :
    (m.apply fold h false).handler = (m.apply fold h true).handler ∧
    (∀ cfg, Event.notify cfg ∉ (m.apply fold h false).events) ∧
    ((m.apply fold h false).events ≠ [] →
      (m.apply fold h false).reply = ⟨500, .error "failed to save config"⟩) := by
  rcases apply_cases_uniform fold h m with ⟨reply, hres⟩ | ⟨cfg1, hres⟩
  · rw [hres false, hres true]
    refine ⟨rfl, ?_, ?_⟩
    · intro cfg hmem
      simp at hmem
    · intro hne
      exact absurd rfl hne
  · rw [hres false, hres true]
    refine ⟨by rw [commit_handler, commit_handler], ?_, fun _ => ?_⟩
    · intro cfg hmem
      rw [commit_events] at hmem
      simp at hmem
    · rw [commit_reply]
      rfl

/-- C12 (as stated, refuted): on an empty rule set a delete request whose
selector matches nothing replies 200 `ok`, not "fallback not found". -/
theorem delete_on_empty_reports_ok :
    (DeleteModelFallbacks asciiFold ⟨some {}, false⟩ ⟨"", "a", ""⟩ true).reply
      = ⟨200, .status "ok"⟩ ∧
    (DeleteModelFallbacks asciiFold ⟨some {}, false⟩ ⟨"", "a", ""⟩ true).reply
      ≠ ⟨400, .error "fallback not found"⟩ := by
  decide

/-- C12 (amended): on a non-empty rule set, a delete request whose index selects
no position and whose `from`/`to` selectors select no rule replies "fallback not
found" and leaves the handler and its collaborators alone; on an empty rule
set every delete request replies 200 `ok` and changes nothing. -/
theorem delete_no_match (fold : Char → Char) (h : Handler) (cfg : Config) (q : DeleteQuery)
    (ok : Bool) (hc : h.cfg = some cfg) (hne : cfg.ModelFallbacks ≠ [])
    (hidx : selectedIndex cfg.ModelFallbacks.length q = none)
    (hno : ∀ r ∈ cfg.ModelFallbacks, selectedBy fold q r = false) :
    DeleteModelFallbacks fold h q ok = ⟨h, ⟨400, .error "fallback not found"⟩, []⟩ ∧
    ∀ (h0 : Handler) (q0 : DeleteQuery) (ok0 : Bool), h0.rules = [] →
      DeleteModelFallbacks fold h0 q0 ok0 = ⟨h0, ⟨200, .status "ok"⟩, []⟩ := by
  refine ⟨?_, fun h0 q0 ok0 hr => delete_empty fold h0 q0 ok0 hr⟩
  rw [delete_eq fold h cfg q ok hc hne, hidx]
  have hany : ¬cfg.ModelFallbacks.any (selectedBy fold q) = true := by
    rw [List.any_eq_true]
    rintro ⟨r, hr, hsel⟩
    rw [hno r hr] at hsel
    cases hsel
  simp only [hany]
  rfl

/-- C12 (amended), at `[x->y]` with the selectors `index = 5`, `from = a`. -/
theorem delete_no_match_witness :
    DeleteModelFallbacks asciiFold ⟨some { ModelFallbacks := [⟨"x", "y"⟩] }, true⟩
      ⟨"5", "a", ""⟩ true
      = ⟨⟨some { ModelFallbacks := [⟨"x", "y"⟩] }, true⟩,
          ⟨400, .error "fallback not found"⟩, []⟩ :=
  (delete_no_match asciiFold ⟨some { ModelFallbacks := [⟨"x", "y"⟩] }, true⟩
    { ModelFallbacks := [⟨"x", "y"⟩] } ⟨"5", "a", ""⟩ true rfl (by decide) (by decide)
    (by decide)).1

/-- C13: on a sanitized rule set, a delete request whose index scans as a
position `i` within bounds (as the decimal numeral of `i` does,
`sscanfInt_decimal`) leaves exactly the rule set without its `i`-th rule, the
others in their order, whatever the `from` and `to` selectors are; when
persistence succeeds the reply is 200 `ok`. -/
theorem delete_by_index (fold : Char → Char) (h : Handler) (cfg : Config) (q : DeleteQuery)
    (ok : Bool) (i : Nat) (hc : h.cfg = some cfg) (hwf : WellFormed fold cfg.ModelFallbacks)
    (hi : sscanfInt q.index = some (i : Int)) (hlt : i < cfg.ModelFallbacks.length) :
    (DeleteModelFallbacks fold h q ok).handler.rules = cfg.ModelFallbacks.eraseIdx i ∧
    cfg.ModelFallbacks.eraseIdx i = cfg.ModelFallbacks.take i ++ cfg.ModelFallbacks.drop (i + 1) ∧
    (DeleteModelFallbacks fold h q true).reply = ⟨200, .status "ok"⟩ := by
  have hne : cfg.ModelFallbacks ≠ [] := by
    intro h0
    rw [h0] at hlt
    exact Nat.not_lt_zero _ hlt
  have hq : q.index ≠ "" := by
    intro h0
    rw [h0, sscanfInt_empty] at hi
    cases hi
  have hsel : selectedIndex cfg.ModelFallbacks.length q = some i := by
    unfold selectedIndex
    rw [if_neg hq, hi]
    have hb : (0 : Int) ≤ (i : Int) ∧ (i : Int) < (cfg.ModelFallbacks.length : Int) :=
      ⟨Int.ofNat_nonneg i, Int.ofNat_lt.mpr hlt⟩
    simp only [hb, and_self, if_true, Int.toNat_ofNat]
  refine ⟨?_, List.eraseIdx_eq_take_drop_succ _ _, ?_⟩
  · rw [delete_eq fold h cfg q ok hc hne, hsel]
    simp only
    rw [commit_rules]
    exact sanitizeRules_of_wellFormed fold
      (wellFormed_sublist fold (List.eraseIdx_sublist _ _) hwf)
  · rw [delete_eq fold h cfg q true hc hne, hsel]
    simp only
    rw [commit_reply]
    rfl

/-- C13, on `[{x,y},{p,q}]` with index 0 and `from = p`: `[{p,q}]` is left. -/
theorem delete_by_index_witness :
    (DeleteModelFallbacks asciiFold
      ⟨some { ModelFallbacks := [⟨"x", "y"⟩, ⟨"p", "q"⟩] }, true⟩
      ⟨"0", "p", ""⟩ true).handler.rules = [⟨"p", "q"⟩] :=
  (delete_by_index asciiFold ⟨some { ModelFallbacks := [⟨"x", "y"⟩, ⟨"p", "q"⟩] }, true⟩
    { ModelFallbacks := [⟨"x", "y"⟩, ⟨"p", "q"⟩] } ⟨"0", "p", ""⟩ true 0 rfl (by decide)
    (by decide) (by decide)).1

/-- C14: when the rule set already holds a rule equal to the new one under case
folding of both fields, add replies 200 and touches neither the handler nor
the collaborators; otherwise the rule set after the add is the sanitized
extension, and when persistence succeeds the reply is 200 `ok` after one call
to the persistence collaborator. -/
theorem add_rule (fold : Char → Char) (h : Handler) (cfg : Config) (fb : ModelFallback)
    (ok : Bool) (hc : h.cfg = some cfg) :
    ((∃ e ∈ cfg.ModelFallbacks, sameRule fold e fb = true) →
      PostModelFallbacks fold h (.parsed fb) ok
        = ⟨h, ⟨200, .statusMessage "ok" "fallback already exists"⟩, []⟩) ∧
    ((∀ e ∈ cfg.ModelFallbacks, sameRule fold e fb = false) →
      (PostModelFallbacks fold h (.parsed fb) ok).handler.rules
          = sanitizeRules fold (cfg.ModelFallbacks ++ [fb]) ∧
      (PostModelFallbacks fold h (.parsed fb) true).reply = ⟨200, .status "ok"⟩ ∧
      (PostModelFallbacks fold h (.parsed fb) true).events.head?
          = some (.persist (SanitizeModelFallbacks fold
              { cfg with ModelFallbacks := cfg.ModelFallbacks ++ [fb] }) true)) := by
  constructor
  · intro hex
    have hany : cfg.ModelFallbacks.any (fun existing => sameRule fold existing fb) = true :=
      List.any_eq_true.mpr hex
    simp only [PostModelFallbacks, hc, hany, if_true]
  · intro hall
    have hany : ¬cfg.ModelFallbacks.any (fun existing => sameRule fold existing fb) = true := by
      rw [List.any_eq_true]
      rintro ⟨e, he, hs⟩
      rw [hall e he] at hs
      cases hs
    have hpost : ∀ ok1, PostModelFallbacks fold h (.parsed fb) ok1
        = commit fold h { cfg with ModelFallbacks := cfg.ModelFallbacks ++ [fb] } ok1 := by
      intro ok1
      simp only [PostModelFallbacks, hc]
      rw [if_neg hany]
    rw [hpost ok, hpost true]
    refine ⟨?_, ?_, ?_⟩
    · exact commit_rules fold h _ ok
    · rw [commit_reply]; rfl
    · rw [commit_events]; rfl

/-- C14, at the addition of `A->B` and of `b->c` to `[a->b]`. -/
theorem add_rule_witness :
    PostModelFallbacks asciiFold ⟨some { ModelFallbacks := [⟨"a", "b"⟩] }, true⟩
      (.parsed ⟨"A", "B"⟩) true
      = ⟨⟨some { ModelFallbacks := [⟨"a", "b"⟩] }, true⟩,
          ⟨200, .statusMessage "ok" "fallback already exists"⟩, []⟩ :=
  (add_rule asciiFold ⟨some { ModelFallbacks := [⟨"a", "b"⟩] }, true⟩
    { ModelFallbacks := [⟨"a", "b"⟩] } ⟨"A", "B"⟩ true rfl).1 (by decide)

/-- C15: on a sanitized rule set, a delete request with a non-blank `from`, no
`to` and no valid index, removes exactly the rules whose `From` equals the
`from` under case folding, when there is one, and keeps the others in their
order (for foldings that keep spaces apart, as the case folding of Go does). -/
theorem delete_by_from (fold : Char → Char) (hfold : SpaceStable fold) (h : Handler)
    (cfg : Config) (q : DeleteQuery) (ok : Bool) (hc : h.cfg = some cfg)
    (hwf : WellFormed fold cfg.ModelFallbacks)
    (hidx : selectedIndex cfg.ModelFallbacks.length q = none)
    (hf : trimSpace q.fromQ ≠ "") (ht : trimSpace q.toQ = "")
    (hex : ∃ r ∈ cfg.ModelFallbacks, equalFold fold r.From q.fromQ = true) :
    (DeleteModelFallbacks fold h q ok).handler.rules
      = cfg.ModelFallbacks.filter (fun r => !equalFold fold r.From q.fromQ) := by
  obtain ⟨r0, hr0, heq0⟩ := hex
  have hne : cfg.ModelFallbacks ≠ [] := List.ne_nil_of_mem hr0
  have htrim : trimSpace q.fromQ = q.fromQ :=
    trimSpace_eq_self (outerSpaceFree_of_equalFold fold hfold heq0 (hwf.1 r0 hr0).2.2.1)
  have hany : cfg.ModelFallbacks.any (selectedBy fold q) = true := by
    rw [selectedBy_from fold q hf ht, htrim, List.any_eq_true]
    exact ⟨r0, hr0, heq0⟩
  rw [delete_eq fold h cfg q ok hc hne, hidx]
  simp only [hany, if_true]
  rw [commit_rules]
  simp only
  rw [sanitizeRules_of_wellFormed fold (wellFormed_sublist fold (List.filter_sublist _) hwf),
    selectedBy_from fold q hf ht, htrim]

/-- C15, on `[a->b, c->d, A->e]` with `from = a`: `[c->d]` is left. -/
theorem delete_by_from_witness :
    (DeleteModelFallbacks asciiFold
      ⟨some { ModelFallbacks := [⟨"a", "b"⟩, ⟨"c", "d"⟩, ⟨"A", "e"⟩] }, true⟩
      ⟨"", "a", ""⟩ true).handler.rules
      = List.filter (fun r => !equalFold asciiFold r.From "a")
          [⟨"a", "b"⟩, ⟨"c", "d"⟩, ⟨"A", "e"⟩] ∧
    List.filter (fun r => !equalFold asciiFold r.From "a")
      [⟨"a", "b"⟩, ⟨"c", "d"⟩, (⟨"A", "e"⟩ : ModelFallback)] = [⟨"c", "d"⟩] :=
  ⟨delete_by_from asciiFold asciiFold_spaceStable
    ⟨some { ModelFallbacks := [⟨"a", "b"⟩, ⟨"c", "d"⟩, ⟨"A", "e"⟩] }, true⟩
    { ModelFallbacks := [⟨"a", "b"⟩, ⟨"c", "d"⟩, ⟨"A", "e"⟩] } ⟨"", "a", ""⟩ true rfl
    (by decide) (by decide) (by decide) (by decide) ⟨⟨"a", "b"⟩, by decide, by decide⟩,
    by decide⟩

/-- C16 (as stated, refuted): without a configuration object a delete request
replies 200 `ok`. -/
theorem delete_without_config_reports_ok :
    (DeleteModelFallbacks asciiFold ⟨none, false⟩ ⟨"0", "a", "b"⟩ true).reply
      = ⟨200, .status "ok"⟩ := by
  decide

/-- C16 (amended): without a configuration object, get-configuration replies 200
with an empty rule set and depth 3; replace and add reply with a failure code
and touch nothing; delete replies 200 `ok` and touches nothing. -/
theorem uninitialized_registry (fold : Char → Char) (am : Bool) (put : Payload PutBody)
    (post : Payload ModelFallback) (q : DeleteQuery) (ok : Bool) :
    GetModelFallbacks none = ⟨200, .fallbacks [] 3⟩ ∧
    GetModelFallbacks (some ⟨none, am⟩) = ⟨200, .fallbacks [] 3⟩ ∧
    ((PutModelFallbacks fold ⟨none, am⟩ put ok).reply.code = 400 ∨
      (PutModelFallbacks fold ⟨none, am⟩ put ok).reply = ⟨500, .error "config not available"⟩) ∧
    (PutModelFallbacks fold ⟨none, am⟩ put ok).handler = ⟨none, am⟩ ∧
    (PutModelFallbacks fold ⟨none, am⟩ put ok).events = [] ∧
    ((PostModelFallbacks fold ⟨none, am⟩ post ok).reply.code = 400 ∨
      (PostModelFallbacks fold ⟨none, am⟩ post ok).reply = ⟨500, .error "config not available"⟩) ∧
    (PostModelFallbacks fold ⟨none, am⟩ post ok).handler = ⟨none, am⟩ ∧
    (PostModelFallbacks fold ⟨none, am⟩ post ok).events = [] ∧
    DeleteModelFallbacks fold ⟨none, am⟩ q ok = ⟨⟨none, am⟩, ⟨200, .status "ok"⟩, []⟩ := by
  refine ⟨rfl, rfl, ?_, ?_, ?_, ?_, ?_, ?_, rfl⟩
  · cases put <;> simp [PutModelFallbacks]
  · cases put <;> rfl
  · cases put <;> rfl
  · cases post <;> simp [PostModelFallbacks]
  · cases post <;> rfl
  · cases post <;> rfl

/-- C19: replace is wholesale: after a successful replace with the rule list `B`
and the optional depth `d`, the handler holds the sanitized `B` and
get-configuration reports it with the depth `d` when `d` is not negative and
with 3 when `d` is negative or omitted, whatever the handler held before. -/
theorem replace_is_wholesale (fold : Char → Char) (h : Handler) (B : List ModelFallback)
    (d : Option Int) (ok : Bool)
    (hs : (PutModelFallbacks fold h (.parsed ⟨B, d⟩) ok).reply.code = 200) :
    (PutModelFallbacks fold h (.parsed ⟨B, d⟩) ok).handler.rules = sanitizeRules fold B ∧
    GetModelFallbacks (some (PutModelFallbacks fold h (.parsed ⟨B, d⟩) ok).handler)
      = ⟨200, .fallbacks (sanitizeRules fold B)
          (match d with
            | none => 3
            | some n => if n < 0 then 3 else n)⟩ := by
  cases hc : h.cfg with
  | none =>
    simp [PutModelFallbacks, hc] at hs
  | some cfg =>
    simp only [PutModelFallbacks, hc] at hs ⊢
    refine ⟨commit_rules fold h _ ok, ?_⟩
    rw [commit_handler]
    cases d with
    | none => rfl
    | some n =>
      by_cases hn : n < 0
      · simp [GetModelFallbacks, SanitizeModelFallbacks, sanitizeDepth, hn]
      · simp [GetModelFallbacks, SanitizeModelFallbacks, sanitizeDepth, hn]

/-- C19, at the replacement of `[a->b]`, depth 7, by `[" x "->"y"]`, depth -1. -/
theorem replace_is_wholesale_witness :
    GetModelFallbacks (some (PutModelFallbacks asciiFold
      ⟨some { ModelFallbacks := [⟨"a", "b"⟩], ModelFallbackDepth := some 7 }, true⟩
      (.parsed ⟨[⟨" x ", "y"⟩], some (-1)⟩) true).handler)
      = ⟨200, .fallbacks (sanitizeRules asciiFold [⟨" x ", "y"⟩])
          (match (some (-1) : Option Int) with
            | none => 3
            | some n => if n < 0 then 3 else n)⟩ :=
  (replace_is_wholesale asciiFold
    ⟨some { ModelFallbacks := [⟨"a", "b"⟩], ModelFallbackDepth := some 7 }, true⟩
    [⟨" x ", "y"⟩] (some (-1)) true (by decide)).2

/-- C20 (as stated, refuted): the index text `0abc` is not a number, yet on
`[x->y]` a delete request carrying it removes the rule at position 0, where the
same request without an index replies "fallback not found". -/
theorem prefixed_index_is_used :
    isNumeral "0abc" = false ∧
    (DeleteModelFallbacks asciiFold ⟨some { ModelFallbacks := [⟨"x", "y"⟩] }, false⟩
      ⟨"0abc", "", ""⟩ true).handler.rules = [] ∧
    (DeleteModelFallbacks asciiFold ⟨some { ModelFallbacks := [⟨"x", "y"⟩] }, false⟩
      ⟨"0abc", "", ""⟩ true).reply = ⟨200, .status "ok"⟩ ∧
    (DeleteModelFallbacks asciiFold ⟨some { ModelFallbacks := [⟨"x", "y"⟩] }, false⟩
      ⟨"", "", ""⟩ true).handler.rules = [⟨"x", "y"⟩] ∧
    (DeleteModelFallbacks asciiFold ⟨some { ModelFallbacks := [⟨"x", "y"⟩] }, false⟩
      ⟨"", "", ""⟩ true).reply = ⟨400, .error "fallback not found"⟩ := by
  decide

/-- C20 (amended): on a non-empty rule set, a delete request whose index text
does not scan as an integer (no optionally signed run of digits at its start,
or one beyond 64 bits), or scans as an integer that is negative or not below the
number of rules, has the outcome of the same request without an index. -/
theorem invalid_index_ignored (fold : Char → Char) (h : Handler) (cfg : Config)
    (q : DeleteQuery) (ok : Bool) (hc : h.cfg = some cfg) (hne : cfg.ModelFallbacks ≠ [])
    (hinv : sscanfInt q.index = none ∨
      ∃ i : Int, sscanfInt q.index = some i ∧ (i < 0 ∨ (cfg.ModelFallbacks.length : Int) ≤ i)) :
    DeleteModelFallbacks fold h q ok = DeleteModelFallbacks fold h { q with index := "" } ok := by
  have h1 : selectedIndex cfg.ModelFallbacks.length q = none := by
    unfold selectedIndex
    split
    · rfl
    · rcases hinv with hnone | ⟨i, hi, hb⟩
      · rw [hnone]
      · rw [hi]
        have : ¬(0 ≤ i ∧ i < (cfg.ModelFallbacks.length : Int)) := by omega
        simp only [this, if_false]
  have h2 : selectedIndex cfg.ModelFallbacks.length { q with index := "" } = none := by
    simp [selectedIndex]
  have h3 : selectedBy fold { q with index := "" } = selectedBy fold q := by
    funext r
    rfl
  rw [delete_eq fold h cfg q ok hc hne, delete_eq fold h cfg _ ok hc hne, h1, h2, h3]

/-- C20 (amended), on `[x->y]` with `index = 7`, `from = x`: the rule is removed
as it is without the index. -/
theorem invalid_index_ignored_witness :
    DeleteModelFallbacks asciiFold ⟨some { ModelFallbacks := [⟨"x", "y"⟩] }, false⟩
      ⟨"7", "x", ""⟩ true
      = DeleteModelFallbacks asciiFold ⟨some { ModelFallbacks := [⟨"x", "y"⟩] }, false⟩
          ⟨"", "x", ""⟩ true :=
  invalid_index_ignored asciiFold ⟨some { ModelFallbacks := [⟨"x", "y"⟩] }, false⟩
    { ModelFallbacks := [⟨"x", "y"⟩] } ⟨"7", "x", ""⟩ true rfl (by decide)
    (Or.inr ⟨7, by decide, Or.inr (by decide)⟩)

/-- C17: the list of known model names is sorted in strictly ascending string
order, so it holds no name twice; it is the same for every order in which the
map of names is ranged; it is what `GetAvailableModels` replies, an empty list
when there is no configuration. -/
theorem available_models_strictly_sorted (cfg : Config) (am : Bool) :
    (availableModels cfg).Sorted (fun a b => a < b) ∧
    (availableModels cfg).Nodup ∧
    (∀ iter : List String, iter.Perm (mapKeys (modelMap cfg)) →
      exchangeSort iter = availableModels cfg) ∧
    GetAvailableModels (some ⟨some cfg, am⟩) = ⟨200, .models (availableModels cfg)⟩ ∧
    GetAvailableModels (some ⟨none, am⟩) = ⟨200, .models []⟩ ∧
    GetAvailableModels none = ⟨200, .models []⟩ := by
  refine ⟨exchangeSort_strict _ (nodup_modelMap cfg), ?_, ?_, rfl, rfl, rfl⟩
  · exact (exchangeSort_perm _).nodup_iff.mpr (nodup_modelMap cfg)
  · intro iter hp
    exact exchangeSort_order_irrelevant iter _ hp (nodup_modelMap cfg)

/-- C18 (the code at a configuration with a Gemini credential): a string is
listed exactly when it is a documented model name or the API key of a Gemini
entry; with the single Gemini entry of API key `sk-secret` and no models, the
key is listed although it is no model name. -/
theorem api_key_is_listed :
    (∀ (cfg : Config) (x : String),
      x ∈ availableModels cfg ↔ isModelName cfg x ∨ ∃ k ∈ cfg.GeminiKey, x = k.APIKey) ∧
    "sk-secret" ∈ availableModels { GeminiKey := [⟨"sk-secret", []⟩] } ∧
    ¬isModelName { GeminiKey := [⟨"sk-secret", []⟩] } "sk-secret" := by
  refine ⟨mem_availableModels, by decide, ?_⟩
  simp [isModelName, commonModels]

end Fallback
